import Mathlib

/-!
# Pocket AI front-end: `static/js/main.js`

A shallow embedding of the three behaviours wired up by the `DOMContentLoaded`
listener of `main.js` (mobile menu toggle, backend status check, form
validation), followed by theorems about them.

The page is modelled as an ordered forest of elements in first-child /
next-sibling form, which is the representation the DOM itself exposes
(`firstChild`, `nextSibling`).  JavaScript object identity of an element is a
natural number `ref`.  Elements removed from the document stay alive in
`Page.detached`, since the listeners' closures still hold them.  The
browser's constraint validation (`validity.valid`, `validationMessage`) is an
input of the handlers, and so is the way the health request settles.  A
`TypeError` raised inside a listener is reported by a flag next to the page
the listener leaves.
-/

namespace PocketAI

/-! ## Elements and trees -/

/-- An element: its object identity `ref`, its local tag name, its `id`
attribute (the empty string when absent, as `el.id` reads), the tokens of its
`classList`, and its `textContent`. -/
structure Elem where
  ref : Nat
  tag : String
  id : String
  classes : List String
  text : String
  deriving DecidableEq, Repr

/-- An ordered forest of elements: `node e kids next` is the element `e` with
child list `kids`, followed by its later siblings `next`. -/
inductive Dom where
  | nil : Dom
  | node (e : Elem) (kids : Dom) (next : Dom) : Dom
  deriving DecidableEq, Repr

namespace Dom

/-- Concatenation of two sibling lists. -/
def append : Dom → Dom → Dom
  | nil, d => d
  | node e k n, d => node e k (append n d)

/-- The elements of a forest in document (pre-)order. -/
def els : Dom → List Elem
  | nil => []
  | node e k n => e :: (els k ++ els n)

/-- The elements of a forest in document order, each with its child list. -/
def nodes : Dom → List (Elem × Dom)
  | nil => []
  | node e k n => (e, k) :: (nodes k ++ nodes n)

/-- The references of the top-level elements of a sibling list. -/
def topRefs : Dom → List Nat
  | nil => []
  | node e _ n => e.ref :: topRefs n

/-- The first element with reference `r`, with its child list. -/
def find (r : Nat) : Dom → Option (Elem × Dom)
  | nil => none
  | node e k n =>
    if e.ref = r then some (e, k)
    else match find r k with
      | some x => some x
      | none => find r n

/-- The reference of the element whose child list contains `r`. -/
def parentOf (r : Nat) : Dom → Option Nat
  | nil => none
  | node e k n =>
    if r ∈ topRefs k then some e.ref
    else match parentOf r k with
      | some p => some p
      | none => parentOf r n

/-- The call `getElementById(s)`: the first element in document order whose
id is `s`; the empty string matches nothing. -/
def getElementById (s : String) (d : Dom) : Option Elem :=
  if s = "" then none else (els d).find? (fun e => decide (e.id = s))

/-- Apply `f` to the element with reference `r`. -/
def modify (r : Nat) (f : Elem → Elem) : Dom → Dom
  | nil => nil
  | node e k n => node (if e.ref = r then f e else e) (modify r f k) (modify r f n)

/-- The call `p.appendChild(c)`: `c` becomes the last child of the element
with reference `p`. -/
def appendChild (p : Nat) (c : Dom) : Dom → Dom
  | nil => nil
  | node e k n =>
    node e (if e.ref = p then append (appendChild p c k) c else appendChild p c k)
      (appendChild p c n)

/-- The call `el.remove()` seen from the tree that holds `el`: the element
with reference `r` leaves the tree together with its subtree. -/
def remove (r : Nat) : Dom → Dom
  | nil => nil
  | node e k n => if e.ref = r then remove r n else node e (remove r k) (remove r n)

/-- An element of the tree with its child list as `appendChild p c` leaves it. -/
def grown (p : Nat) (c : Dom) (y : Elem × Dom) : Elem × Dom :=
  (y.1, if y.1.ref = p then (appendChild p c y.2).append c else appendChild p c y.2)

end Dom

/-! ## `classList` -/

/-- The call `classList.add(c)`. -/
def classListAdd (c : String) (cs : List String) : List String :=
  if c ∈ cs then cs else cs ++ [c]

/-- The call `classList.remove(c)`. -/
def classListRemove (c : String) (cs : List String) : List String :=
  cs.filter (fun x => decide (x ≠ c))

/-- The call `classList.toggle(c)`. -/
def classListToggle (c : String) (cs : List String) : List String :=
  if c ∈ cs then classListRemove c cs else cs ++ [c]

/-- Replace the class tokens of an element. -/
def Elem.withClasses (e : Elem) (f : List String → List String) : Elem :=
  ⟨e.ref, e.tag, e.id, f e.classes, e.text⟩

/-! ## Pages -/

/-- The state the handlers act on: the document tree, the subtrees that have
been removed from it (still referenced by listeners' closures), and the next
unused element reference. -/
structure Page where
  doc : Dom
  detached : Dom
  fresh : Nat
  deriving DecidableEq, Repr

namespace Page

/-- The element with reference `r`, attached or not, with its child list. -/
def lookup (r : Nat) (pg : Page) : Option (Elem × Dom) :=
  match pg.doc.find r with
  | some x => some x
  | none => pg.detached.find r

/-- The value of `el.id`. -/
def idOf (r : Nat) (pg : Page) : String :=
  match pg.lookup r with
  | some x => x.1.id
  | none => ""

/-- The tokens of `el.classList`. -/
def classesOf (r : Nat) (pg : Page) : List String :=
  match pg.lookup r with
  | some x => x.1.classes
  | none => []

/-- The value of `el.parentNode` when it is an element; `none` stands for
`null` (the root of a removed subtree).  The fields a listener holds are
descendants of a form, so their parent is never the document itself. -/
def parentNode (r : Nat) (pg : Page) : Option Nat :=
  match pg.doc.parentOf r with
  | some p => some p
  | none => pg.detached.parentOf r

/-- The references of `el.children`, in order. -/
def childRefs (r : Nat) (pg : Page) : List Nat :=
  match pg.lookup r with
  | some x => Dom.topRefs x.2
  | none => []

/-- Update the element with reference `r` wherever it lives. -/
def modify (r : Nat) (f : Elem → Elem) (pg : Page) : Page :=
  ⟨Dom.modify r f pg.doc, Dom.modify r f pg.detached, pg.fresh⟩

/-- The call `p.appendChild(c)` for an element `p` wherever it lives. -/
def appendChild (p : Nat) (c : Dom) (pg : Page) : Page :=
  ⟨Dom.appendChild p c pg.doc, Dom.appendChild p c pg.detached, pg.fresh⟩

/-- The call `el.remove()` for an element of the document: its subtree moves
to the removed subtrees. -/
def removeEl (r : Nat) (pg : Page) : Page :=
  match pg.doc.find r with
  | some x => ⟨Dom.remove r pg.doc, Dom.append pg.detached (Dom.node x.1 x.2 Dom.nil), pg.fresh⟩
  | none => pg

end Page

/-! ## Mobile menu toggle (lines 7-14) -/

/-- The mobile-menu part of the `DOMContentLoaded` listener: when both the
button and the panel are found, a click listener is registered on the button
that captures the panel; the result is the captured panel. -/
def menuSetup (pg : Page) : Option Nat :=
  match pg.doc.getElementById "mobile-menu-button", pg.doc.getElementById "mobile-menu" with
  | some _, some mobileMenu => some mobileMenu.ref
  | _, _ => none

/-- The click listener of the menu button: `mobileMenu.classList.toggle('hidden')`. -/
def menuClick (mobileMenu : Nat) (pg : Page) : Page :=
  pg.modify mobileMenu (fun e => e.withClasses (classListToggle "hidden"))

/-- The page after `n` clicks of the menu button. -/
def menuClicks (mobileMenu : Nat) : Nat → Page → Page
  | 0, pg => pg
  | n + 1, pg => menuClicks mobileMenu n (menuClick mobileMenu pg)

/-- The page after `n` clicks of the menu button, as set up at load: clicks do
nothing when the listener was not registered. -/
def menuAfterClicks (pg : Page) (n : Nat) : Page :=
  match menuSetup pg with
  | some mobileMenu => menuClicks mobileMenu n pg
  | none => pg

/-! ## Backend status check (lines 26-48) -/

/-- How the `fetch('/api/health')` promise settles. -/
inductive FetchResult where
  | response (status : Nat)
  | rejected
  deriving DecidableEq, Repr

/-- The value of `response.ok`: the status is in the range 200-299. -/
def responseOk (status : Nat) : Bool :=
  decide (200 ≤ status ∧ status ≤ 299)

/-- The status indicator: its class tokens and its `title`. -/
structure Indicator where
  classes : List String
  title : String
  deriving DecidableEq, Repr

/-- The body shared by the `else` branch of `.then` and by `.catch`. -/
def markOffline (ind : Indicator) : Indicator :=
  ⟨classListRemove "bg-green-500" (classListAdd "bg-red-500" ind.classes), "API is offline"⟩

/-- The `if (response.ok)` branch of `.then`. -/
def markOnline (ind : Indicator) : Indicator :=
  ⟨classListRemove "bg-red-500" (classListAdd "bg-green-500" ind.classes), "API is online"⟩

/-- The completion handler of the health check: `.then(...)` on a response,
`.catch(...)` on a rejection. -/
def onHealthSettled (r : FetchResult) (ind : Indicator) : Indicator :=
  match r with
  | FetchResult.response status => if responseOk status then markOnline ind else markOffline ind
  | FetchResult.rejected => markOffline ind

/-- What a call of `checkBackendStatus` leaves behind: the page, the requests
it issued, and whether it threw. -/
structure StatusCall where
  page : Page
  requests : List String
  threw : Bool
  deriving DecidableEq, Repr

/-- The synchronous part of `checkBackendStatus`: return at once when the
indicator is missing, otherwise issue the request. -/
def checkBackendStatus (pg : Page) : StatusCall :=
  match pg.doc.getElementById "api-status-indicator" with
  | none => ⟨pg, [], false⟩
  | some _ => ⟨pg, ["/api/health"], false⟩

/-! ## Form validation (lines 53-97) -/

/-- The browser's constraint validation, read by the handlers:
`input.validity.valid` and `input.validationMessage` per element, and the
result of `form.checkValidity()` per form.  The aggregate is a reading of its
own: the browser skips controls that are barred from validation (disabled,
read-only) even when their `validity.valid` is false, and it validates
controls the listeners never look at (buttons, controls attached by `form=`). -/
structure Validity where
  valid : Nat → Bool
  validationMessage : Nat → String
  formValid : Nat → Bool

/-- The tags matched by the selector `'input, textarea, select'`. -/
def fieldTags : List String := ["input", "textarea", "select"]

/-- The marker class of an invalid field. -/
def marker : String := "border-red-500"

/-- The template literal for the id of a field's error message. -/
def errorId (fieldId : String) : String := "error-" ++ fieldId

/-- The matches of `'input, textarea, select'` among the elements of a forest,
in document order. -/
def selectFields (d : Dom) : List Nat :=
  ((d.els).filter (fun e => decide (e.tag ∈ fieldTags))).map Elem.ref

/-- The call `form.querySelectorAll('input, textarea, select')`: the matching
descendants of the form, as a static list. -/
def querySelectorAllFields (form : Nat) (pg : Page) : List Nat :=
  match pg.lookup form with
  | some x => selectFields x.2
  | none => []

/-- The call `form.checkValidity()` at line 57: the browser's aggregate
reading for the form. -/
def checkValidity (v : Validity) (form : Nat) : Bool :=
  v.formValid form

/-- The element created at lines 68-71. -/
def errorMsg (v : Validity) (input : Nat) (pg : Page) : Elem :=
  ⟨pg.fresh, "p", errorId (pg.idOf input), ["text-red-500", "text-xs", "mt-1"],
    v.validationMessage input⟩

/-- The body of the `forEach` of the submit listener (lines 62-80) for one
field.  `Except.error` carries the page at the point where
`input.parentNode.appendChild` throws because `parentNode` is `null`. -/
def highlightField (v : Validity) (input : Nat) (pg : Page) : Except Page Page :=
  if v.valid input = false then
    let pg1 := pg.modify input (fun e => e.withClasses (classListAdd marker))
    match pg1.doc.getElementById (errorId (pg1.idOf input)) with
    | some _ => Except.ok pg1
    | none =>
      let pg2 : Page := ⟨pg1.doc, pg1.detached, pg1.fresh + 1⟩
      match pg1.parentNode input with
      | none => Except.error pg2
      | some p => Except.ok (pg2.appendChild p (Dom.node (errorMsg v input pg1) Dom.nil Dom.nil))
  else
    let pg1 := pg.modify input (fun e => e.withClasses (classListRemove marker))
    match pg1.doc.getElementById (errorId (pg1.idOf input)) with
    | some errorEl => Except.ok (pg1.removeEl errorEl.ref)
    | none => Except.ok pg1

/-- The `forEach` over the static list of fields; an exception ends the loop
and is reported by the flag. -/
def forEachField (v : Validity) : List Nat → Page → Page × Bool
  | [], pg => (pg, false)
  | input :: rest, pg =>
    match highlightField v input pg with
    | Except.ok pg1 => forEachField v rest pg1
    | Except.error pg1 => (pg1, true)

/-- What a run of the submit listener leaves behind: the page, whether
`e.preventDefault()` was called, and whether the listener threw. -/
structure SubmitResult where
  page : Page
  defaultPrevented : Bool
  threw : Bool
  deriving DecidableEq, Repr

/-- The submit listener registered on `form` (lines 56-83). -/
def submitListener (v : Validity) (form : Nat) (pg : Page) : SubmitResult :=
  if checkValidity v form then ⟨pg, false, false⟩
  else
    let r := forEachField v (querySelectorAllFields form pg) pg
    ⟨r.1, true, r.2⟩

/-- The input listener registered on `input` (lines 87-94). -/
def inputListener (v : Validity) (input : Nat) (pg : Page) : Page :=
  if v.valid input then
    let pg1 := pg.modify input (fun e => e.withClasses (classListRemove marker))
    match pg1.doc.getElementById (errorId (pg1.idOf input)) with
    | some errorEl => pg1.removeEl errorEl.ref
    | none => pg1
  else pg

/-- The listeners registered by `setupFormValidation`: for every form of the
document, the form and the static list of its fields at that moment. -/
def setupFormValidation (pg : Page) : List (Nat × List Nat) :=
  (((pg.doc.els).filter (fun e => decide (e.tag = "form"))).map Elem.ref).map
    (fun form => (form, querySelectorAllFields form pg))

/-! ## Events on one bound form -/

/-- A submit event on the form, or an input event on an element, together
with the constraint validation the browser reports while the listener runs. -/
inductive Event where
  | submit (v : Validity)
  | input (v : Validity) (field : Nat)

/-- One read of `input.validity.valid` by a listener: the field, the value
read, and whether the submit listener (rather than the input listener) read it. -/
structure Obs where
  field : Nat
  valid : Bool
  bySubmit : Bool
  deriving DecidableEq, Repr

/-- The fields whose validity the `forEach` of the submit listener reads
before it ends. -/
def fieldsRead (v : Validity) : List Nat → Page → List Nat
  | [], _ => []
  | input :: rest, pg =>
    input :: (match highlightField v input pg with
      | Except.ok pg1 => fieldsRead v rest pg1
      | Except.error _ => [])

/-- The page after the listeners that `setupFormValidation` registered for
`form` (whose fields were `bound` at that moment) have handled the event. -/
def fire (form : Nat) (bound : List Nat) (ev : Event) (pg : Page) : Page :=
  match ev with
  | Event.submit v => (submitListener v form pg).page
  | Event.input v field => if field ∈ bound then inputListener v field pg else pg

/-- The reads of `validity.valid` made while the event is handled. -/
def reads (form : Nat) (bound : List Nat) (ev : Event) (pg : Page) : List Obs :=
  match ev with
  | Event.submit v =>
    if checkValidity v form then []
    else (fieldsRead v (querySelectorAllFields form pg) pg).map (fun f => ⟨f, v.valid f, true⟩)
  | Event.input v field => if field ∈ bound then [⟨field, v.valid field, false⟩] else []

/-- The page after a sequence of events, with the reads made so far in
chronological order. -/
def runEvents (form : Nat) (bound : List Nat) : List Event → Page × List Obs → Page × List Obs
  | [], st => st
  | ev :: rest, st =>
    runEvents form bound rest (fire form bound ev st.1, st.2 ++ reads form bound ev st.1)

/-- What the most recent read of the field's validity found. -/
def lastObserved (field : Nat) (log : List Obs) : Option Bool :=
  ((log.filter (fun o => decide (o.field = field))).getLast?).map Obs.valid

/-- What the most recent read that a listener acts on found: the input
listener does nothing when it reads an invalid field, so those reads are
skipped. -/
def lastActedOn (field : Nat) (log : List Obs) : Option Bool :=
  ((log.filter (fun o => decide (o.field = field) && (o.bySubmit || o.valid))).getLast?).map
    Obs.valid

/-! ## Measures used by the statements -/

/-- The ids `error-<fieldId>` of the fields of the form. -/
def errorKeys (form : Nat) (pg : Page) : List String :=
  (querySelectorAllFields form pg).map (fun f => errorId (pg.idOf f))

/-- The elements of the document whose id is `s`. -/
def withId (s : String) (pg : Page) : List Elem :=
  (pg.doc.els).filter (fun e => decide (e.id = s))

/-- The error-message nodes for the fields of the form: the elements of the
document whose id is `error-<fieldId>` for a field of the form. -/
def errorNodes (form : Nat) (pg : Page) : List Elem :=
  (pg.doc.els).filter (fun e => decide (e.id ∈ errorKeys form pg))

/-- The fields of the form whose native validity is invalid. -/
def invalidFields (v : Validity) (form : Nat) (pg : Page) : List Nat :=
  (querySelectorAllFields form pg).filter (fun f => !v.valid f)

/-! ## Well-keyed pages -/

/-- The pages on which the string key `error-<fieldId>` names one thing: the
form is in the document, element references are distinct and below the next
unused one, the fields of the form have pairwise distinct ids, and an element
whose id is `error-<fieldId>` for a field of the form is the only one with
that id, has no children and is not itself a field. -/
structure WellKeyed (form : Nat) (pg : Page) : Prop where
  attached : (pg.doc.find form).isSome = true
  refs_nodup : ((pg.doc.els ++ pg.detached.els).map Elem.ref).Nodup
  refs_fresh : ∀ e ∈ pg.doc.els ++ pg.detached.els, e.ref < pg.fresh
  ids_nodup : ((querySelectorAllFields form pg).map (fun f => pg.idOf f)).Nodup
  keys_once : ∀ k ∈ errorKeys form pg, (pg.doc.els).countP (fun e => decide (e.id = k)) ≤ 1
  keys_leaf : ∀ x ∈ pg.doc.nodes,
    x.1.id ∈ errorKeys form pg → x.2 = Dom.nil ∧ x.1.tag ∉ fieldTags

/-! ## Notions used in the proofs -/

/-- The element as `modify r (withClasses g)` leaves it. -/
def restyled (r : Nat) (g : List String → List String) (e : Elem) : Elem :=
  if e.ref = r then e.withClasses g else e

/-- The page after `createElement` has handed out the next reference to `c`
and `p.appendChild(c)` has run. -/
def Page.adopt (p : Nat) (c : Elem) (pg : Page) : Page :=
  Page.appendChild p (Dom.node c Dom.nil Dom.nil) ⟨pg.doc, pg.detached, pg.fresh + 1⟩

/-- What a listener keeps of a well-keyed page: it stays well-keyed, the form
has the same fields with the same ids, and references are only added. -/
structure Kept (form : Nat) (pg pg' : Page) : Prop where
  wk : WellKeyed form pg'
  fields : querySelectorAllFields form pg' = querySelectorAllFields form pg
  ids : ∀ g ∈ querySelectorAllFields form pg, pg'.idOf g = pg.idOf g
  fresh : pg.fresh ≤ pg'.fresh

/-- The effect of handling one field `f` whose validity is `ok`: the marker
class of `f` follows `ok`, the elements with the key of `f` are none when
`ok`, otherwise those there were or else the newly created message, and the
other fields of the form keep their classes and their messages. -/
structure Step (form : Nat) (ok : Bool) (msg : String) (f : Nat) (pg pg' : Page) : Prop where
  kept : Kept form pg pg'
  classes : pg'.classesOf f =
    if ok = true then classListRemove marker (pg.classesOf f)
    else classListAdd marker (pg.classesOf f)
  others : ∀ g ∈ querySelectorAllFields form pg, g ≠ f →
    pg'.classesOf g = pg.classesOf g ∧
      withId (errorId (pg.idOf g)) pg' = withId (errorId (pg.idOf g)) pg
  cleared : ok = true → withId (errorId (pg.idOf f)) pg' = []
  stays : ok = false → withId (errorId (pg.idOf f)) pg ≠ [] →
    withId (errorId (pg.idOf f)) pg' = withId (errorId (pg.idOf f)) pg ∧ pg'.fresh = pg.fresh
  created : ok = false → withId (errorId (pg.idOf f)) pg = [] →
    withId (errorId (pg.idOf f)) pg' =
      [⟨pg.fresh, "p", errorId (pg.idOf f), ["text-red-500", "text-xs", "mt-1"], msg⟩] ∧
    pg'.fresh = pg.fresh + 1

/-- The effect of the `forEach` of the submit listener over the fields `L`
of a well-keyed page: each field of `L` gets the marker class exactly when it
is invalid, a valid one is left without message, an invalid one keeps the
message it had or else gets a newly created one, and the fields outside `L`
keep their classes and messages. -/
structure Swept (form : Nat) (v : Validity) (L : List Nat) (pg pg' : Page) : Prop where
  kept : Kept form pg pg'
  classes_in : ∀ g ∈ L, pg'.classesOf g =
    if v.valid g = true then classListRemove marker (pg.classesOf g)
    else classListAdd marker (pg.classesOf g)
  untouched : ∀ g ∈ querySelectorAllFields form pg, g ∉ L →
    pg'.classesOf g = pg.classesOf g ∧
      withId (errorId (pg.idOf g)) pg' = withId (errorId (pg.idOf g)) pg
  cleared : ∀ g ∈ L, v.valid g = true → withId (errorId (pg.idOf g)) pg' = []
  stays : ∀ g ∈ L, v.valid g = false → withId (errorId (pg.idOf g)) pg ≠ [] →
    withId (errorId (pg.idOf g)) pg' = withId (errorId (pg.idOf g)) pg
  created : ∀ g ∈ L, v.valid g = false → withId (errorId (pg.idOf g)) pg = [] →
    ∃ r, pg.fresh ≤ r ∧ r < pg'.fresh ∧ withId (errorId (pg.idOf g)) pg' =
      [⟨r, "p", errorId (pg.idOf g), ["text-red-500", "text-xs", "mt-1"],
        v.validationMessage g⟩]

/-- The field shows its validity: an invalid field has the marker class and a
message, a valid one has neither. -/
def Settled (v : Validity) (pg : Page) (f : Nat) : Prop :=
  if v.valid f = true then
    marker ∉ pg.classesOf f ∧ withId (errorId (pg.idOf f)) pg = []
  else marker ∈ pg.classesOf f ∧ withId (errorId (pg.idOf f)) pg ≠ []

/-- The invariant of the event loop of one form: the page is still well-keyed
with the fields it had at setup, and a field has an element with its key
exactly when the last read a listener acted on found it invalid. -/
def Tracked (form : Nat) (pg0 : Page) (st : Page × List Obs) : Prop :=
  Kept form pg0 st.1 ∧
    ∀ f ∈ querySelectorAllFields form pg0,
      (withId (errorId (pg0.idOf f)) st.1 ≠ [] ↔ lastActedOn f st.2 = some false)

/-! ## Example pages -/

/-- The page `form#login > input#email, input#pw, button#go`. -/
def loginPage : Page :=
  ⟨Dom.node ⟨1, "form", "login", [], ""⟩
    (Dom.node ⟨2, "input", "email", [], ""⟩ Dom.nil
      (Dom.node ⟨3, "input", "pw", [], ""⟩ Dom.nil
        (Dom.node ⟨4, "button", "go", [], ""⟩ Dom.nil Dom.nil))) Dom.nil,
    Dom.nil, 5⟩

/-- The page `form#login > input, input`: neither field has an id attribute. -/
def unnamedFieldsPage : Page :=
  ⟨Dom.node ⟨1, "form", "login", [], ""⟩
    (Dom.node ⟨2, "input", "", [], ""⟩ Dom.nil
      (Dom.node ⟨3, "input", "", [], ""⟩ Dom.nil Dom.nil)) Dom.nil,
    Dom.nil, 4⟩

/-- The page `form#signup > div > input, input, input#code`: the first two
fields have no id attribute. -/
def signupPage : Page :=
  ⟨Dom.node ⟨1, "form", "signup", [], ""⟩
    (Dom.node ⟨2, "div", "", [], ""⟩
      (Dom.node ⟨3, "input", "", [], ""⟩ Dom.nil
        (Dom.node ⟨4, "input", "", [], ""⟩ Dom.nil
          (Dom.node ⟨5, "input", "code", [], ""⟩ Dom.nil Dom.nil))) Dom.nil) Dom.nil,
    Dom.nil, 10⟩

/-- The page `form#report > input#code, input#error-code, input#note`: the id
of the second field is the error key of the first. -/
def reportPage : Page :=
  ⟨Dom.node ⟨1, "form", "report", [], ""⟩
    (Dom.node ⟨2, "input", "code", [], ""⟩ Dom.nil
      (Dom.node ⟨3, "input", "error-code", [], ""⟩ Dom.nil
        (Dom.node ⟨4, "input", "note", [], ""⟩ Dom.nil Dom.nil))) Dom.nil,
    Dom.nil, 5⟩

/-- The page `form#login > input#pw.border-red-500, p#error-pw, p#error-pw`:
two elements carry the id `error-pw`. -/
def twoMessagesPage : Page :=
  ⟨Dom.node ⟨1, "form", "login", [], ""⟩
    (Dom.node ⟨2, "input", "pw", ["border-red-500"], ""⟩ Dom.nil
      (Dom.node ⟨3, "p", "error-pw", ["text-red-500", "text-xs", "mt-1"],
          "Please fill out this field."⟩ Dom.nil
        (Dom.node ⟨4, "p", "error-pw", ["text-red-500", "text-xs", "mt-1"],
          "Please fill out this field."⟩ Dom.nil Dom.nil))) Dom.nil,
    Dom.nil, 5⟩

/-- The page `nav > button#mobile-menu-button, div#mobile-menu.flex`: the
panel is visible at load. -/
def openNavPage : Page :=
  ⟨Dom.node ⟨1, "nav", "", [], ""⟩
    (Dom.node ⟨2, "button", "mobile-menu-button", [], ""⟩ Dom.nil
      (Dom.node ⟨3, "div", "mobile-menu", ["flex"], ""⟩ Dom.nil Dom.nil)) Dom.nil,
    Dom.nil, 4⟩

/-- The constraint validation under which exactly the elements of `ok` are
reported valid (`validity.valid` for a field, `checkValidity()` for a form)
and every field reports the message `msg`. -/
def validOnly (ok : List Nat) (msg : String) : Validity :=
  ⟨fun r => decide (r ∈ ok), fun _ => msg, fun r => decide (r ∈ ok)⟩

/-- The message Chromium shows for an empty required field. -/
def fillOut : String := "Please fill out this field."

/-- The page `nav > button#mobile-menu-button, div#mobile-menu.hidden`. -/
def navPage : Page :=
  ⟨Dom.node ⟨1, "nav", "", [], ""⟩
    (Dom.node ⟨2, "button", "mobile-menu-button", [], ""⟩ Dom.nil
      (Dom.node ⟨3, "div", "mobile-menu", ["hidden", "md:hidden"], ""⟩ Dom.nil Dom.nil)) Dom.nil,
    Dom.nil, 4⟩

/-! ## Lemmas about trees -/

namespace Dom

theorem els_eq_nodes (d : Dom) : d.els = d.nodes.map Prod.fst := by
  induction d with
  | nil => rfl
  | node e k n ihk ihn => simp [els, nodes, ihk, ihn]

theorem els_append (a b : Dom) : (a.append b).els = a.els ++ b.els := by
  induction a with
  | nil => rfl
  | node e k n _ ihn => simp [append, els, ihn]

theorem nodes_append (a b : Dom) : (a.append b).nodes = a.nodes ++ b.nodes := by
  induction a with
  | nil => rfl
  | node e k n _ ihn => simp [append, nodes, ihn]

theorem topRefs_append (a b : Dom) : (a.append b).topRefs = a.topRefs ++ b.topRefs := by
  induction a with
  | nil => rfl
  | node e k n _ ihn => simp [append, topRefs, ihn]

theorem find_eq (r : Nat) (d : Dom) :
    d.find r = d.nodes.find? (fun x => decide (x.1.ref = r)) := by
  induction d with
  | nil => rfl
  | node e k n ihk ihn =>
    by_cases h : e.ref = r
    · simp [find, nodes, h]
    · simp only [find, nodes, h, if_false, List.find?_cons, decide_False, List.find?_append, ihk, ihn]
      cases List.find? (fun x => decide (x.1.ref = r)) k.nodes <;> rfl

theorem find_mem {r : Nat} {d : Dom} {x : Elem × Dom} (h : d.find r = some x) :
    x ∈ d.nodes ∧ x.1.ref = r := by
  rw [find_eq] at h
  have h1 := List.mem_of_find?_eq_some h
  have h2 := List.find?_some h
  exact ⟨h1, by simpa using h2⟩

theorem nodes_sub {d : Dom} {x : Elem × Dom} (h : x ∈ d.nodes) :
    ∀ y ∈ x.2.nodes, y ∈ d.nodes := by
  induction d with
  | nil => simp [nodes] at h
  | node e k n ihk ihn =>
    intro y hy
    simp only [nodes, List.mem_cons, List.mem_append] at h ⊢
    rcases h with h | h | h
    · subst h; exact Or.inr (Or.inl hy)
    · exact Or.inr (Or.inl (ihk h y hy))
    · exact Or.inr (Or.inr (ihn h y hy))

/-! ### modify -/

theorem nodes_modify (r : Nat) (f : Elem → Elem) (d : Dom) :
    (modify r f d).nodes =
      d.nodes.map (fun x => (if x.1.ref = r then f x.1 else x.1, modify r f x.2)) := by
  induction d with
  | nil => rfl
  | node e k n ihk ihn => simp [modify, nodes, ihk, ihn]

theorem els_modify (r : Nat) (f : Elem → Elem) (d : Dom) :
    (modify r f d).els = d.els.map (fun e => if e.ref = r then f e else e) := by
  induction d with
  | nil => rfl
  | node e k n ihk ihn => simp [modify, els, ihk, ihn]

theorem topRefs_modify (r : Nat) (f : Elem → Elem) (hf : ∀ e, (f e).ref = e.ref) (d : Dom) :
    (modify r f d).topRefs = d.topRefs := by
  induction d with
  | nil => rfl
  | node e k n _ ihn =>
    by_cases h : e.ref = r <;> simp [modify, topRefs, ihn, h, hf]

theorem parentOf_modify (x r : Nat) (f : Elem → Elem) (hf : ∀ e, (f e).ref = e.ref) (d : Dom) :
    parentOf x (modify r f d) = parentOf x d := by
  induction d with
  | nil => rfl
  | node e k n ihk ihn =>
    by_cases h : e.ref = r <;>
      simp [modify, parentOf, ihk, ihn, h, hf, topRefs_modify]

theorem find_modify (x r : Nat) (f : Elem → Elem) (hf : ∀ e, (f e).ref = e.ref) (d : Dom) :
    find x (modify r f d) =
      (find x d).map (fun y => (if y.1.ref = r then f y.1 else y.1, modify r f y.2)) := by
  induction d with
  | nil => rfl
  | node e k n ihk ihn =>
    have key : (if e.ref = r then f e else e).ref = e.ref := by
      split <;> simp [hf]
    simp only [modify, find, key, ihk, ihn]
    by_cases hx : e.ref = x
    · simp [hx]
    · simp only [hx, if_false]
      cases find x k <;> simp

theorem modify_id (r : Nat) (f : Elem → Elem) (d : Dom)
    (h : ∀ e ∈ d.els, e.ref = r → f e = e) : modify r f d = d := by
  induction d with
  | nil => rfl
  | node e k n ihk ihn =>
    simp only [els, List.mem_cons, List.mem_append] at h
    simp only [modify]
    rw [ihk (fun a ha => h a (Or.inr (Or.inl ha))), ihn (fun a ha => h a (Or.inr (Or.inr ha)))]
    by_cases hr : e.ref = r
    · simp [hr, h e (Or.inl rfl) hr]
    · simp [hr]

/-! ### appendChild -/

theorem topRefs_appendChild (p : Nat) (c d : Dom) : (appendChild p c d).topRefs = d.topRefs := by
  induction d with
  | nil => rfl
  | node e k n _ ihn => simp [appendChild, topRefs, ihn]

theorem els_appendChild_filter (P : Elem → Bool) (p : Nat) (c d : Dom)
    (hc : ∀ e ∈ c.els, P e = false) :
    (appendChild p c d).els.filter P = d.els.filter P := by
  induction d with
  | nil => rfl
  | node e k n ihk ihn =>
    have hcf : c.els.filter P = [] := by
      simpa [List.filter_eq_nil_iff] using hc
    by_cases h : e.ref = p
    · simp [appendChild, els, h, List.filter_cons, els_append, ihk, ihn, hcf]
    · simp [appendChild, els, h, List.filter_cons, ihk, ihn]

theorem els_appendChild_countP (P : Elem → Bool) (p : Nat) (c d : Dom) :
    (appendChild p c d).els.countP P =
      d.els.countP P + d.els.countP (fun e => decide (e.ref = p)) * c.els.countP P := by
  induction d with
  | nil => simp [appendChild, els]
  | node e k n ihk ihn =>
    by_cases h : e.ref = p
    · simp only [appendChild, els, h, if_true, List.countP_cons, List.countP_append, els_append,
        ihk, ihn, decide_True]
      ring
    · simp only [appendChild, els, h, if_false, List.countP_cons, List.countP_append,
        ihk, ihn, decide_False]
      simp; ring

theorem mem_els_appendChild {p : Nat} {c d : Dom} {e : Elem}
    (h : e ∈ (appendChild p c d).els) : e ∈ d.els ∨ e ∈ c.els := by
  induction d with
  | nil => simp [appendChild, els] at h
  | node a k n ihk ihn =>
    by_cases hp : a.ref = p
    · simp only [appendChild, els, hp, if_true, List.mem_cons, List.mem_append, els_append] at h ⊢
      rcases h with h | (h | h) | h
      · exact Or.inl (Or.inl h)
      · rcases ihk h with h | h
        · exact Or.inl (Or.inr (Or.inl h))
        · exact Or.inr h
      · exact Or.inr h
      · rcases ihn h with h | h
        · exact Or.inl (Or.inr (Or.inr h))
        · exact Or.inr h
    · simp only [appendChild, els, hp, if_false, List.mem_cons, List.mem_append] at h ⊢
      rcases h with h | h | h
      · exact Or.inl (Or.inl h)
      · rcases ihk h with h | h
        · exact Or.inl (Or.inr (Or.inl h))
        · exact Or.inr h
      · rcases ihn h with h | h
        · exact Or.inl (Or.inr (Or.inr h))
        · exact Or.inr h

theorem mem_els_of_appendChild {p : Nat} {c d : Dom} {e : Elem}
    (h : e ∈ d.els) : e ∈ (appendChild p c d).els := by
  induction d with
  | nil => simp [els] at h
  | node a k n ihk ihn =>
    simp only [els, List.mem_cons, List.mem_append] at h
    by_cases hp : a.ref = p
    · simp only [appendChild, els, hp, if_true, List.mem_cons, List.mem_append, els_append]
      rcases h with h | h | h
      · exact Or.inl h
      · exact Or.inr (Or.inl (Or.inl (ihk h)))
      · exact Or.inr (Or.inr (ihn h))
    · simp only [appendChild, els, hp, if_false, List.mem_cons, List.mem_append]
      rcases h with h | h | h
      · exact Or.inl h
      · exact Or.inr (Or.inl (ihk h))
      · exact Or.inr (Or.inr (ihn h))

theorem find_append (x : Nat) (a b : Dom) :
    find x (a.append b) = (find x a).or (find x b) := by
  induction a with
  | nil => simp [append, find]
  | node e k n _ ihn =>
    by_cases h : e.ref = x
    · simp [append, find, h]
    · simp only [append, find, h, if_false, ihn]
      cases find x k <;> simp

theorem parentOf_append (x : Nat) (a b : Dom) :
    parentOf x (a.append b) = (parentOf x a).or (parentOf x b) := by
  induction a with
  | nil => simp [append, parentOf]
  | node e k n _ ihn =>
    by_cases h : x ∈ topRefs k
    · simp [append, parentOf, h]
    · simp only [append, parentOf, h, if_false, ihn]
      cases parentOf x k <;> simp

theorem find_appendChild (x p : Nat) (c d : Dom) (hc : find x c = none) :
    find x (appendChild p c d) = (find x d).map (grown p c) := by
  induction d with
  | nil => rfl
  | node e k n ihk ihn =>
    simp only [appendChild, find]
    by_cases hx : e.ref = x
    · rw [if_pos hx, if_pos hx]; rfl
    · rw [if_neg hx, if_neg hx]
      by_cases hp : e.ref = p
      · rw [if_pos hp, find_append, ihk, ihn, hc]
        cases find x k <;> simp
      · rw [if_neg hp, ihk, ihn]
        cases find x k <;> simp

theorem parentOf_appendChild (x p : Nat) (c d : Dom) (hc : x ∉ topRefs c)
    (hc2 : parentOf x c = none) :
    parentOf x (appendChild p c d) = parentOf x d := by
  induction d with
  | nil => rfl
  | node e k n ihk ihn =>
    by_cases hp : e.ref = p
    · simp only [appendChild, parentOf, hp, if_true, topRefs_append, topRefs_appendChild,
        List.mem_append, hc, or_false, parentOf_append, ihk, ihn, hc2]
      cases parentOf x k <;> simp
    · simp only [appendChild, parentOf, hp, if_false, topRefs_appendChild, ihk, ihn]

theorem mem_nodes_appendChild {p : Nat} {c d : Dom} {x : Elem × Dom}
    (h : x ∈ (appendChild p c d).nodes) : x ∈ c.nodes ∨ ∃ y ∈ d.nodes, x = grown p c y := by
  induction d with
  | nil => simp [appendChild, nodes] at h
  | node a k n ihk ihn =>
    by_cases hp : a.ref = p
    · simp only [appendChild, nodes, hp, if_true, List.mem_cons, List.mem_append,
        nodes_append] at h
      rcases h with h | (h | h) | h
      · exact Or.inr ⟨(a, k), by simp [nodes], by simp [h, grown, hp]⟩
      · rcases ihk h with h | ⟨y, hy, e⟩
        · exact Or.inl h
        · exact Or.inr ⟨y, by simp [nodes, hy], e⟩
      · exact Or.inl h
      · rcases ihn h with h | ⟨y, hy, e⟩
        · exact Or.inl h
        · exact Or.inr ⟨y, by simp [nodes, hy], e⟩
    · simp only [appendChild, nodes, hp, if_false, List.mem_cons, List.mem_append] at h
      rcases h with h | h | h
      · exact Or.inr ⟨(a, k), by simp [nodes], by simp [h, grown, hp]⟩
      · rcases ihk h with h | ⟨y, hy, e⟩
        · exact Or.inl h
        · exact Or.inr ⟨y, by simp [nodes, hy], e⟩
      · rcases ihn h with h | ⟨y, hy, e⟩
        · exact Or.inl h
        · exact Or.inr ⟨y, by simp [nodes, hy], e⟩

/-! ### remove -/

theorem topRefs_remove (r : Nat) (d : Dom) :
    (remove r d).topRefs = d.topRefs.filter (fun x => decide (x ≠ r)) := by
  induction d with
  | nil => rfl
  | node e k n _ ihn =>
    by_cases h : e.ref = r
    · simp [remove, topRefs, h, ihn]
    · simp [remove, topRefs, h, ihn, List.filter_cons]

theorem mem_els_remove {r : Nat} {d : Dom} {e : Elem} (h : e ∈ (remove r d).els) :
    e ∈ d.els ∧ e.ref ≠ r := by
  induction d with
  | nil => simp [remove, els] at h
  | node a k n ihk ihn =>
    by_cases hr : a.ref = r
    · simp only [remove, hr, if_true] at h
      have := ihn h
      exact ⟨by simp [els, this.1], this.2⟩
    · simp only [remove, hr, if_false, els, List.mem_cons, List.mem_append] at h
      rcases h with h | h | h
      · subst h; exact ⟨by simp [els], hr⟩
      · have := ihk h; exact ⟨by simp [els, this.1], this.2⟩
      · have := ihn h; exact ⟨by simp [els, this.1], this.2⟩

theorem nodes_remove (r : Nat) (d : Dom) (hleaf : ∀ x ∈ d.nodes, x.1.ref = r → x.2 = nil) :
    (remove r d).nodes =
      (d.nodes.filter (fun x => decide (x.1.ref ≠ r))).map (fun x => (x.1, remove r x.2)) := by
  induction d with
  | nil => rfl
  | node e k n ihk ihn =>
    have hk : ∀ x ∈ k.nodes, x.1.ref = r → x.2 = nil := fun x hx =>
      hleaf x (by simp [nodes, hx])
    have hn : ∀ x ∈ n.nodes, x.1.ref = r → x.2 = nil := fun x hx =>
      hleaf x (by simp [nodes, hx])
    by_cases h : e.ref = r
    · have : k = nil := hleaf (e, k) (by simp [nodes]) h
      subst this
      simp [remove, nodes, h, ihn hn, List.filter_cons]
    · simp [remove, nodes, h, ihk hk, ihn hn, List.filter_cons]

theorem els_remove (r : Nat) (d : Dom) (hleaf : ∀ x ∈ d.nodes, x.1.ref = r → x.2 = nil) :
    (remove r d).els = d.els.filter (fun e => decide (e.ref ≠ r)) := by
  rw [els_eq_nodes, els_eq_nodes, nodes_remove r d hleaf, List.map_map, List.filter_map]
  rfl

theorem find_remove (x r : Nat) (d : Dom) (hleaf : ∀ y ∈ d.nodes, y.1.ref = r → y.2 = nil)
    (hx : x ≠ r) :
    find x (remove r d) = (find x d).map (fun y => (y.1, remove r y.2)) := by
  induction d with
  | nil => rfl
  | node e k n ihk ihn =>
    have hk : ∀ y ∈ k.nodes, y.1.ref = r → y.2 = nil := fun y hy =>
      hleaf y (by simp [nodes, hy])
    have hn : ∀ y ∈ n.nodes, y.1.ref = r → y.2 = nil := fun y hy =>
      hleaf y (by simp [nodes, hy])
    simp only [remove, find]
    by_cases h : e.ref = r
    · have : k = nil := hleaf (e, k) (by simp [nodes]) h
      subst this
      have hex : e.ref ≠ x := fun h2 => hx (h2 ▸ h)
      rw [if_pos h, if_neg hex, ihn hn]
      simp [find]
    · rw [if_neg h]
      by_cases hex : e.ref = x
      · rw [if_pos hex]; simp [find, hex]
      · rw [if_neg hex]
        simp only [find, if_neg hex, ihk hk, ihn hn]
        cases find x k <;> simp

theorem parentOf_remove (x r : Nat) (d : Dom) (hleaf : ∀ y ∈ d.nodes, y.1.ref = r → y.2 = nil)
    (hx : x ≠ r) :
    parentOf x (remove r d) = parentOf x d := by
  induction d with
  | nil => rfl
  | node e k n ihk ihn =>
    have hk : ∀ y ∈ k.nodes, y.1.ref = r → y.2 = nil := fun y hy =>
      hleaf y (by simp [nodes, hy])
    have hn : ∀ y ∈ n.nodes, y.1.ref = r → y.2 = nil := fun y hy =>
      hleaf y (by simp [nodes, hy])
    by_cases h : e.ref = r
    · have : k = nil := hleaf (e, k) (by simp [nodes]) h
      subst this
      simp [remove, parentOf, h, ihn hn, topRefs]
    · simp only [remove, parentOf, h, if_false, ihk hk, ihn hn, topRefs_remove, List.mem_filter,
        decide_eq_true_eq, hx, ne_eq, not_false_eq_true, and_true]

/-! ### parents -/

theorem parentOf_some {x p : Nat} {d : Dom} (h : parentOf x d = some p) :
    ∃ y ∈ d.nodes, y.1.ref = p ∧ x ∈ topRefs y.2 := by
  induction d with
  | nil => simp [parentOf] at h
  | node e k n ihk ihn =>
    by_cases hx : x ∈ topRefs k
    · simp only [parentOf, hx, if_true, Option.some.injEq] at h
      exact ⟨(e, k), by simp [nodes], h, hx⟩
    · simp only [parentOf, hx, if_false] at h
      cases hk : parentOf x k with
      | some q =>
        rw [hk] at h
        obtain ⟨y, hy, h1, h2⟩ := ihk (by rw [hk]; exact congrArg _ (Option.some.inj h))
        exact ⟨y, by simp [nodes, hy], h1, h2⟩
      | none =>
        rw [hk] at h
        obtain ⟨y, hy, h1, h2⟩ := ihn h
        exact ⟨y, by simp [nodes, hy], h1, h2⟩

theorem topRefs_subset_els (d : Dom) : ∀ x ∈ d.topRefs, x ∈ d.els.map Elem.ref := by
  induction d with
  | nil => simp [topRefs]
  | node e k n _ ihn =>
    intro x hx
    simp only [topRefs, List.mem_cons] at hx
    rcases hx with hx | hx
    · simp [els, hx]
    · have := ihn x hx
      simp only [els, List.map_cons, List.map_append, List.mem_cons, List.mem_append]
      exact Or.inr (Or.inr this)

theorem parentOf_node_isSome {x : Nat} {e : Elem} {k n : Dom}
    (h : x ∈ topRefs k ∨ (parentOf x k).isSome ∨ (parentOf x n).isSome) :
    (parentOf x (node e k n)).isSome := by
  simp only [parentOf]
  by_cases hx : x ∈ topRefs k
  · rw [if_pos hx]; rfl
  · rw [if_neg hx]
    cases hk : parentOf x k with
    | some q => rfl
    | none =>
      rcases h with h | h | h
      · exact absurd h hx
      · rw [hk] at h; exact absurd h (by simp)
      · exact h

theorem top_or_parentOf {x : Nat} {d : Dom} (hx : x ∈ d.els.map Elem.ref) :
    x ∈ topRefs d ∨ (parentOf x d).isSome := by
  induction d with
  | nil => simp [els] at hx
  | node e k n ihk ihn =>
    simp only [els, List.map_cons, List.map_append, List.mem_cons, List.mem_append] at hx
    rcases hx with hx | hx | hx
    · exact Or.inl (by simp [topRefs, hx])
    · rcases ihk hx with h | h
      · exact Or.inr (parentOf_node_isSome (Or.inl h))
      · exact Or.inr (parentOf_node_isSome (Or.inr (Or.inl h)))
    · rcases ihn hx with h | h
      · exact Or.inl (by simp [topRefs, h])
      · exact Or.inr (parentOf_node_isSome (Or.inr (Or.inr h)))

theorem parentOf_isSome {x : Nat} {d : Dom} {y : Elem × Dom} (hy : y ∈ d.nodes)
    (hx : x ∈ y.2.els.map Elem.ref) : (parentOf x d).isSome := by
  induction d with
  | nil => simp [nodes] at hy
  | node e k n ihk ihn =>
    simp only [nodes, List.mem_cons, List.mem_append] at hy
    rcases hy with hy | hy | hy
    · subst hy
      rcases top_or_parentOf hx with h | h
      · exact parentOf_node_isSome (Or.inl h)
      · exact parentOf_node_isSome (Or.inr (Or.inl h))
    · exact parentOf_node_isSome (Or.inr (Or.inl (ihk hy)))
    · exact parentOf_node_isSome (Or.inr (Or.inr (ihn hy)))

end Dom

/-! ## Lemmas about pages -/

theorem errorId_ne_empty (s : String) : errorId s ≠ "" := by
  intro h
  have := congrArg String.length h
  simp only [errorId, String.length_append] at this
  have h6 : "error-".length = 6 := by decide
  rw [h6] at this
  have h0 : "".length = 0 := by decide
  rw [h0] at this
  omega

theorem errorId_inj {a b : String} (h : errorId a = errorId b) : a = b := by
  have := congrArg String.data h
  simp [errorId, String.data_append] at this
  exact String.ext this

theorem find?_eq_head?_filter {α : Type} (p : α → Bool) (l : List α) :
    l.find? p = (l.filter p).head? := by
  induction l with
  | nil => rfl
  | cons a l ih =>
    by_cases h : p a = true
    · rw [List.find?_cons_of_pos _ h, List.filter_cons_of_pos h]; rfl
    · rw [List.find?_cons_of_neg _ h, List.filter_cons_of_neg h]; exact ih

theorem getElementById_eq_head {s : String} (hs : s ≠ "") (d : Dom) :
    d.getElementById s = (d.els.filter (fun e => decide (e.id = s))).head? := by
  simp only [Dom.getElementById, hs, if_false, find?_eq_head?_filter]

theorem getElementById_errorId (i : String) (pg : Page) :
    pg.doc.getElementById (errorId i) = (withId (errorId i) pg).head? :=
  getElementById_eq_head (errorId_ne_empty i) pg.doc

theorem getElementById_some {s : String} {d : Dom} {e : Elem}
    (h : d.getElementById s = some e) : e ∈ d.els ∧ e.id = s := by
  unfold Dom.getElementById at h
  split at h
  · cases h
  · exact ⟨List.mem_of_find?_eq_some h, by simpa using List.find?_some h⟩

namespace Dom

theorem nodes_inj {d : Dom} (hnd : (d.els.map Elem.ref).Nodup) {x y : Elem × Dom}
    (hx : x ∈ d.nodes) (hy : y ∈ d.nodes) (h : x.1.ref = y.1.ref) : x = y := by
  rw [els_eq_nodes, List.map_map] at hnd
  exact List.inj_on_of_nodup_map hnd hx hy h

theorem mem_els_of_mem_nodes {d : Dom} {x : Elem × Dom} (hx : x ∈ d.nodes) : x.1 ∈ d.els := by
  rw [els_eq_nodes]; exact List.mem_map_of_mem _ hx

theorem exists_node_of_mem_els {d : Dom} {e : Elem} (he : e ∈ d.els) :
    ∃ k, (e, k) ∈ d.nodes := by
  rw [els_eq_nodes] at he
  obtain ⟨x, hx, rfl⟩ := List.mem_map.1 he
  exact ⟨x.2, hx⟩

theorem els_inj {d : Dom} (hnd : (d.els.map Elem.ref).Nodup) {a b : Elem}
    (ha : a ∈ d.els) (hb : b ∈ d.els) (h : a.ref = b.ref) : a = b :=
  List.inj_on_of_nodup_map hnd ha hb h

theorem find_of_mem {d : Dom} (hnd : (d.els.map Elem.ref).Nodup) {x : Elem × Dom}
    (hx : x ∈ d.nodes) : d.find x.1.ref = some x := by
  cases h : d.find x.1.ref with
  | none =>
    rw [find_eq, List.find?_eq_none] at h
    exact absurd (h x hx) (by simp)
  | some y =>
    obtain ⟨hy, hr⟩ := find_mem h
    rw [nodes_inj hnd hy hx hr]

theorem els_sub {d : Dom} {x : Elem × Dom} (h : x ∈ d.nodes) : ∀ e ∈ x.2.els, e ∈ d.els := by
  intro e he
  obtain ⟨k, hk⟩ := exists_node_of_mem_els he
  exact mem_els_of_mem_nodes (nodes_sub h (e, k) hk)

end Dom

/-! ### fields of an attached form -/

theorem mem_selectFields {d : Dom} {f : Nat} (h : f ∈ selectFields d) :
    ∃ e ∈ d.els, e.ref = f ∧ e.tag ∈ fieldTags := by
  simp only [selectFields, List.mem_map, List.mem_filter, decide_eq_true_eq] at h
  obtain ⟨e, ⟨he, ht⟩, hr⟩ := h
  exact ⟨e, he, hr, ht⟩

theorem field_node {form : Nat} {pg : Page} (hatt : (pg.doc.find form).isSome = true)
    {f : Nat} (hf : f ∈ querySelectorAllFields form pg) :
    ∃ x ∈ pg.doc.nodes, x.1.ref = f ∧ x.1.tag ∈ fieldTags ∧ (pg.doc.parentOf f).isSome := by
  obtain ⟨y, hy⟩ := Option.isSome_iff_exists.1 hatt
  have hl : pg.lookup form = some y := by simp [Page.lookup, hy]
  simp only [querySelectorAllFields, hl] at hf
  obtain ⟨e, he, hr, ht⟩ := mem_selectFields hf
  obtain ⟨k, hk⟩ := Dom.exists_node_of_mem_els he
  have hy2 := (Dom.find_mem hy).1
  refine ⟨(e, k), Dom.nodes_sub hy2 _ hk, hr, ht, ?_⟩
  exact Dom.parentOf_isSome hy2 (by rw [← hr]; exact List.mem_map_of_mem _ he)

theorem lookup_of_node {pg : Page} (hnd : (pg.doc.els.map Elem.ref).Nodup)
    {x : Elem × Dom} (hx : x ∈ pg.doc.nodes) : pg.lookup x.1.ref = some x := by
  simp [Page.lookup, Dom.find_of_mem hnd hx]

@[simp] theorem withClasses_ref (e : Elem) (g : List String → List String) :
    (e.withClasses g).ref = e.ref := rfl
@[simp] theorem withClasses_tag (e : Elem) (g : List String → List String) :
    (e.withClasses g).tag = e.tag := rfl
@[simp] theorem withClasses_id (e : Elem) (g : List String → List String) :
    (e.withClasses g).id = e.id := rfl
@[simp] theorem withClasses_text (e : Elem) (g : List String → List String) :
    (e.withClasses g).text = e.text := rfl
@[simp] theorem withClasses_classes (e : Elem) (g : List String → List String) :
    (e.withClasses g).classes = g e.classes := rfl

@[simp] theorem restyled_ref (r : Nat) (g : List String → List String) (e : Elem) :
    (restyled r g e).ref = e.ref := by unfold restyled; split <;> rfl
@[simp] theorem restyled_tag (r : Nat) (g : List String → List String) (e : Elem) :
    (restyled r g e).tag = e.tag := by unfold restyled; split <;> rfl
@[simp] theorem restyled_id (r : Nat) (g : List String → List String) (e : Elem) :
    (restyled r g e).id = e.id := by unfold restyled; split <;> rfl
@[simp] theorem restyled_text (r : Nat) (g : List String → List String) (e : Elem) :
    (restyled r g e).text = e.text := by unfold restyled; split <;> rfl

theorem restyled_of_ne {r : Nat} {g : List String → List String} {e : Elem} (h : e.ref ≠ r) :
    restyled r g e = e := by simp [restyled, h]

namespace Page

theorem lookup_modify (x r : Nat) (g : List String → List String) (pg : Page) :
    (pg.modify r (fun e => e.withClasses g)).lookup x =
      (pg.lookup x).map
        (fun y => (restyled r g y.1, Dom.modify r (fun e => e.withClasses g) y.2)) := by
  simp only [lookup, modify, Dom.find_modify x r _ (fun e => withClasses_ref e g)]
  cases Dom.find x pg.doc <;> simp [restyled]

theorem idOf_modify (x r : Nat) (g : List String → List String) (pg : Page) :
    (pg.modify r (fun e => e.withClasses g)).idOf x = pg.idOf x := by
  simp only [idOf, lookup_modify]
  cases pg.lookup x <;> simp

theorem classesOf_modify_ne {x r : Nat} (h : x ≠ r) (g : List String → List String) (pg : Page) :
    (pg.modify r (fun e => e.withClasses g)).classesOf x = pg.classesOf x := by
  simp only [classesOf, lookup_modify]
  cases hl : pg.lookup x with
  | none => simp
  | some y =>
    have : y.1.ref = x := by
      simp only [lookup] at hl
      cases hd : Dom.find x pg.doc with
      | some z => rw [hd] at hl; cases hl; exact (Dom.find_mem hd).2
      | none => rw [hd] at hl; exact (Dom.find_mem hl).2
    simp [restyled, this, h]

theorem lookup_ref {x : Nat} {pg : Page} {y : Elem × Dom} (hl : pg.lookup x = some y) :
    y.1.ref = x := by
  simp only [lookup] at hl
  cases hd : Dom.find x pg.doc with
  | some z => rw [hd] at hl; cases hl; exact (Dom.find_mem hd).2
  | none => rw [hd] at hl; exact (Dom.find_mem hl).2

theorem classesOf_modify_self {r : Nat} (g : List String → List String) {pg : Page}
    (h : (pg.lookup r).isSome = true) :
    (pg.modify r (fun e => e.withClasses g)).classesOf r = g (pg.classesOf r) := by
  obtain ⟨y, hy⟩ := Option.isSome_iff_exists.1 h
  simp [classesOf, lookup_modify, hy, restyled, lookup_ref hy]

theorem parentNode_modify (x r : Nat) (g : List String → List String) (pg : Page) :
    (pg.modify r (fun e => e.withClasses g)).parentNode x = pg.parentNode x := by
  simp only [parentNode, modify, Dom.parentOf_modify x r _ (fun e => withClasses_ref e g)]

theorem childRefs_modify (x r : Nat) (g : List String → List String) (pg : Page) :
    (pg.modify r (fun e => e.withClasses g)).childRefs x = pg.childRefs x := by
  simp only [childRefs, lookup_modify]
  cases pg.lookup x <;>
    simp [Dom.topRefs_modify r _ (fun e => withClasses_ref e g)]

end Page

theorem selectFields_modify (r : Nat) (g : List String → List String) (d : Dom) :
    selectFields (Dom.modify r (fun e => e.withClasses g) d) = selectFields d := by
  have hfun : (fun e : Elem => if e.ref = r then e.withClasses g else e) = restyled r g := rfl
  simp only [selectFields, Dom.els_modify, hfun, List.filter_map, List.map_map]
  have h1 : ((fun e : Elem => decide (e.tag ∈ fieldTags)) ∘ restyled r g)
      = (fun e : Elem => decide (e.tag ∈ fieldTags)) := by
    funext e; simp
  have h2 : (Elem.ref ∘ restyled r g) = Elem.ref := by
    funext e; simp
  rw [h1, h2]

theorem fields_modify (form r : Nat) (g : List String → List String) (pg : Page) :
    querySelectorAllFields form (pg.modify r (fun e => e.withClasses g)) =
      querySelectorAllFields form pg := by
  simp only [querySelectorAllFields, Page.lookup_modify]
  cases pg.lookup form <;> simp [selectFields_modify]

theorem errorKeys_modify (form r : Nat) (g : List String → List String) (pg : Page) :
    errorKeys form (pg.modify r (fun e => e.withClasses g)) = errorKeys form pg := by
  simp only [errorKeys, fields_modify, Page.idOf_modify]

theorem els_modify_doc (r : Nat) (g : List String → List String) (pg : Page) :
    (pg.modify r (fun e => e.withClasses g)).doc.els = pg.doc.els.map (restyled r g) := by
  simp only [Page.modify, Dom.els_modify]; rfl

theorem els_modify_detached (r : Nat) (g : List String → List String) (pg : Page) :
    (pg.modify r (fun e => e.withClasses g)).detached.els = pg.detached.els.map (restyled r g) := by
  simp only [Page.modify, Dom.els_modify]; rfl

theorem withId_modify (k : String) (r : Nat) (g : List String → List String) (pg : Page) :
    withId k (pg.modify r (fun e => e.withClasses g)) = (withId k pg).map (restyled r g) := by
  simp only [withId, els_modify_doc, List.filter_map]
  have h1 : ((fun e : Elem => decide (e.id = k)) ∘ restyled r g)
      = (fun e : Elem => decide (e.id = k)) := by
    funext e; simp
  rw [h1]

theorem getElementById_modify (s : String) (r : Nat) (g : List String → List String) (pg : Page) :
    (pg.modify r (fun e => e.withClasses g)).doc.getElementById s =
      (pg.doc.getElementById s).map (restyled r g) := by
  by_cases hs : s = ""
  · simp [Dom.getElementById, hs]
  · simp only [Dom.getElementById, hs, if_false, els_modify_doc, List.find?_map]
    have h1 : ((fun e : Elem => decide (e.id = s)) ∘ restyled r g)
        = (fun e : Elem => decide (e.id = s)) := by
      funext e; simp
    rw [h1]

theorem WellKeyed.doc_nodup {form : Nat} {pg : Page} (h : WellKeyed form pg) :
    (pg.doc.els.map Elem.ref).Nodup := by
  have := h.refs_nodup
  rw [List.map_append] at this
  exact (List.nodup_append.1 this).1

theorem WellKeyed.field {form : Nat} {pg : Page} (h : WellKeyed form pg) {f : Nat}
    (hf : f ∈ querySelectorAllFields form pg) :
    ∃ x ∈ pg.doc.nodes, x.1.ref = f ∧ x.1.tag ∈ fieldTags ∧ pg.lookup f = some x ∧
      ∃ p, pg.doc.parentOf f = some p := by
  obtain ⟨x, hx, hr, ht, hp⟩ := field_node h.attached hf
  refine ⟨x, hx, hr, ht, ?_, Option.isSome_iff_exists.1 hp⟩
  rw [← hr]
  exact lookup_of_node h.doc_nodup hx

theorem WellKeyed.key_not_field {form : Nat} {pg : Page} (h : WellKeyed form pg) {e : Elem}
    (he : e ∈ pg.doc.els) (hk : e.id ∈ errorKeys form pg) {f : Nat}
    (hf : f ∈ querySelectorAllFields form pg) : e.ref ≠ f := by
  intro hef
  obtain ⟨x, hx, hr, ht, -, -⟩ := h.field hf
  obtain ⟨k, hek⟩ := Dom.exists_node_of_mem_els he
  have := Dom.nodes_inj h.doc_nodup hek hx (by simp [hef, hr])
  subst this
  exact (h.keys_leaf _ hek hk).2 ht

theorem WellKeyed.modify {form : Nat} {pg : Page} (h : WellKeyed form pg) (r : Nat)
    (g : List String → List String) :
    WellKeyed form (pg.modify r (fun e => e.withClasses g)) := by
  have hr : (Elem.ref ∘ restyled r g) = Elem.ref := by funext e; simp
  refine ⟨?_, ?_, ?_, ?_, ?_, ?_⟩
  · have := h.attached
    simp only [Page.modify, Dom.find_modify form r _ (fun e => withClasses_ref e g)]
    cases hfd : Dom.find form pg.doc with
    | none => rw [hfd] at this; cases this
    | some y => rfl
  · simp only [els_modify_doc, els_modify_detached, ← List.map_append, List.map_map, hr]
    exact h.refs_nodup
  · intro e he
    simp only [els_modify_doc, els_modify_detached, ← List.map_append, List.mem_map] at he
    obtain ⟨a, ha, rfl⟩ := he
    simpa [Page.modify] using h.refs_fresh a ha
  · simp only [fields_modify, Page.idOf_modify]
    exact h.ids_nodup
  · intro k hk
    rw [errorKeys_modify] at hk
    rw [els_modify_doc, List.countP_map]
    have h1 : ((fun e : Elem => decide (e.id = k)) ∘ restyled r g)
        = (fun e : Elem => decide (e.id = k)) := by
      funext e; simp
    rw [h1]
    exact h.keys_once k hk
  · intro x hx hk
    rw [errorKeys_modify] at hk
    simp only [Page.modify, Dom.nodes_modify, List.mem_map] at hx
    obtain ⟨y, hy, rfl⟩ := hx
    have hid : (if y.1.ref = r then y.1.withClasses g else y.1) = restyled r g y.1 := rfl
    simp only [hid, restyled_id, restyled_tag] at hk ⊢
    obtain ⟨h1, h2⟩ := h.keys_leaf y hy hk
    exact ⟨by rw [h1]; rfl, h2⟩

theorem withId_modify_field {form : Nat} {pg : Page} (h : WellKeyed form pg) {f : Nat}
    (hf : f ∈ querySelectorAllFields form pg) {k : String} (hk : k ∈ errorKeys form pg)
    (g : List String → List String) :
    withId k (pg.modify f (fun e => e.withClasses g)) = withId k pg := by
  rw [withId_modify]
  conv_rhs => rw [← List.map_id (withId k pg)]
  apply List.map_congr_left
  intro e he
  simp only [withId, List.mem_filter, decide_eq_true_eq] at he
  simp only [id]
  exact restyled_of_ne (h.key_not_field he.1 (he.2 ▸ hk) hf)

theorem countP_ref_le_one {l : List Elem} (h : (l.map Elem.ref).Nodup) (a : Nat) :
    l.countP (fun e => decide (e.ref = a)) ≤ 1 := by
  induction l with
  | nil => simp
  | cons e l ih =>
    simp only [List.map_cons, List.nodup_cons] at h
    by_cases he : e.ref = a
    · have : l.countP (fun e => decide (e.ref = a)) = 0 := by
        rw [List.countP_eq_zero]
        intro x hx hxa
        exact h.1 (by rw [he]; exact List.mem_map.2 ⟨x, hx, by simpa using hxa⟩)
      simp [List.countP_cons, he, this]
    · simpa [List.countP_cons, he] using ih h.2

theorem countP_ref_eq_one {l : List Elem} (h : (l.map Elem.ref).Nodup) {a : Nat}
    (ha : a ∈ l.map Elem.ref) : l.countP (fun e => decide (e.ref = a)) = 1 := by
  have h1 := countP_ref_le_one h a
  have h2 : 0 < l.countP (fun e => decide (e.ref = a)) := by
    rw [List.countP_pos_iff]
    obtain ⟨e, he, hr⟩ := List.mem_map.1 ha
    exact ⟨e, he, by simpa using hr⟩
  omega

theorem nodup_of_countP_ref {l : List Elem}
    (h : ∀ a, l.countP (fun e => decide (e.ref = a)) ≤ 1) : (l.map Elem.ref).Nodup := by
  induction l with
  | nil => simp
  | cons e l ih =>
    simp only [List.map_cons, List.nodup_cons]
    constructor
    · intro hmem
      obtain ⟨x, hx, hr⟩ := List.mem_map.1 hmem
      have := h e.ref
      have hpos : 0 < l.countP (fun y => decide (y.ref = e.ref)) := by
        rw [List.countP_pos_iff]; exact ⟨x, hx, by simpa using hr⟩
      rw [List.countP_cons] at this
      simp only [decide_True, if_true] at this
      omega
    · apply ih
      intro a
      have := h a
      rw [List.countP_cons] at this
      omega

theorem eq_singleton_of_forall {α : Type} {l : List α} {c : α} (hlen : l.length = 1)
    (hall : ∀ x ∈ l, x = c) : l = [c] := by
  match l, hlen, hall with
  | [x], _, hall => rw [hall x (by simp)]

theorem find_leaf_ne {x : Nat} {c : Elem} (h : x ≠ c.ref) :
    Dom.find x (Dom.node c Dom.nil Dom.nil) = none := by
  simp [Dom.find, Ne.symm h]

namespace Page

theorem lookup_adopt {x p : Nat} {c : Elem} (pg : Page) (hx : x ≠ c.ref) :
    (pg.adopt p c).lookup x = (pg.lookup x).map (Dom.grown p (Dom.node c Dom.nil Dom.nil)) := by
  simp only [lookup, adopt, appendChild, Dom.find_appendChild x p _ _ (find_leaf_ne hx)]
  cases Dom.find x pg.doc <;> simp

theorem idOf_adopt {x p : Nat} {c : Elem} (pg : Page) (hx : x ≠ c.ref) :
    (pg.adopt p c).idOf x = pg.idOf x := by
  simp only [idOf, lookup_adopt pg hx]
  cases pg.lookup x <;> simp [Dom.grown]

theorem classesOf_adopt {x p : Nat} {c : Elem} (pg : Page) (hx : x ≠ c.ref) :
    (pg.adopt p c).classesOf x = pg.classesOf x := by
  simp only [classesOf, lookup_adopt pg hx]
  cases pg.lookup x <;> simp [Dom.grown]

theorem childRefs_adopt_self {p : Nat} {c : Elem} {pg : Page} (hp : p ≠ c.ref)
    (h : (pg.lookup p).isSome = true) :
    (pg.adopt p c).childRefs p = pg.childRefs p ++ [c.ref] := by
  obtain ⟨y, hy⟩ := Option.isSome_iff_exists.1 h
  simp [childRefs, lookup_adopt pg hp, hy, Dom.grown, lookup_ref hy, Dom.topRefs_append,
    Dom.topRefs_appendChild, Dom.topRefs]

theorem childRefs_adopt_ne {x p : Nat} {c : Elem} (pg : Page) (hx : x ≠ c.ref) (hxp : x ≠ p) :
    (pg.adopt p c).childRefs x = pg.childRefs x := by
  simp only [childRefs, lookup_adopt pg hx]
  cases hy : pg.lookup x with
  | none => simp
  | some y => simp [Dom.grown, lookup_ref hy, hxp, Dom.topRefs_appendChild]

end Page

theorem selectFields_appendChild (p : Nat) (c : Elem) (hc : c.tag ∉ fieldTags) (d : Dom) :
    selectFields (Dom.appendChild p (Dom.node c Dom.nil Dom.nil) d) = selectFields d := by
  simp only [selectFields]
  rw [Dom.els_appendChild_filter]
  intro e he
  simp only [Dom.els, List.append_nil, List.mem_singleton] at he
  simp [he, hc]

theorem fields_adopt {form p : Nat} {c : Elem} (pg : Page) (hform : form ≠ c.ref)
    (hc : c.tag ∉ fieldTags) :
    querySelectorAllFields form (pg.adopt p c) = querySelectorAllFields form pg := by
  simp only [querySelectorAllFields, Page.lookup_adopt pg hform]
  cases pg.lookup form with
  | none => rfl
  | some y =>
    simp only [Option.map_some', Dom.grown]
    split
    · simp only [selectFields, Dom.els_append, List.filter_append, List.map_append]
      have h1 := selectFields_appendChild p c hc y.2
      simp only [selectFields] at h1
      rw [h1]
      simp [Dom.els, hc]
    · exact selectFields_appendChild p c hc y.2

theorem els_adopt_doc (p : Nat) (c : Elem) (pg : Page) :
    (pg.adopt p c).doc = Dom.appendChild p (Dom.node c Dom.nil Dom.nil) pg.doc := rfl

theorem withId_adopt_ne {k : String} {p : Nat} {c : Elem} (pg : Page) (hk : c.id ≠ k) :
    withId k (pg.adopt p c) = withId k pg := by
  simp only [withId, els_adopt_doc]
  apply Dom.els_appendChild_filter
  intro e he
  simp only [Dom.els, List.append_nil, List.mem_singleton] at he
  simp [he, hk]

theorem countP_adopt (P : Elem → Bool) (p : Nat) (c : Elem) (pg : Page) :
    (pg.adopt p c).doc.els.countP P =
      pg.doc.els.countP P +
        pg.doc.els.countP (fun e => decide (e.ref = p)) * (if P c = true then 1 else 0) := by
  rw [els_adopt_doc, Dom.els_appendChild_countP]
  simp [Dom.els, List.countP_cons]

theorem withId_adopt_self {p : Nat} {c : Elem} {pg : Page}
    (hnd : (pg.doc.els.map Elem.ref).Nodup) (hp : p ∈ pg.doc.els.map Elem.ref)
    (hnone : withId c.id pg = []) :
    withId c.id (pg.adopt p c) = [c] := by
  apply eq_singleton_of_forall
  · simp only [withId, ← List.countP_eq_length_filter]
    rw [countP_adopt, countP_ref_eq_one hnd hp]
    have : pg.doc.els.countP (fun e => decide (e.id = c.id)) = 0 := by
      rw [List.countP_eq_length_filter]
      simp only [withId] at hnone
      rw [hnone]; rfl
    simp [this]
  · intro x hx
    simp only [withId, List.mem_filter, decide_eq_true_eq, els_adopt_doc] at hx
    rcases Dom.mem_els_appendChild hx.1 with h | h
    · have : x ∈ withId c.id pg := by
        simp only [withId, List.mem_filter, decide_eq_true_eq]; exact ⟨h, hx.2⟩
      rw [hnone] at this; cases this
    · simpa [Dom.els] using h

theorem WellKeyed.form_lt {form : Nat} {pg : Page} (h : WellKeyed form pg) : form < pg.fresh := by
  obtain ⟨z, hz⟩ := Option.isSome_iff_exists.1 h.attached
  have h1 := Dom.find_mem hz
  have := h.refs_fresh z.1 (List.mem_append_left _ (Dom.mem_els_of_mem_nodes h1.1))
  omega

theorem WellKeyed.field_lt {form : Nat} {pg : Page} (h : WellKeyed form pg) {f : Nat}
    (hf : f ∈ querySelectorAllFields form pg) : f < pg.fresh := by
  obtain ⟨x, hx, hr, -, -, -⟩ := h.field hf
  have := h.refs_fresh x.1 (List.mem_append_left _ (Dom.mem_els_of_mem_nodes hx))
  omega

theorem errorKeys_adopt {form p : Nat} {c : Elem} {pg : Page} (h : WellKeyed form pg)
    (hcr : c.ref = pg.fresh) (hct : c.tag ∉ fieldTags) :
    errorKeys form (pg.adopt p c) = errorKeys form pg := by
  have hform : form ≠ c.ref := by have := h.form_lt; omega
  simp only [errorKeys, fields_adopt pg hform hct]
  apply List.map_congr_left
  intro g hg
  have : g ≠ c.ref := by have := h.field_lt hg; omega
  rw [Page.idOf_adopt pg this]

theorem WellKeyed.adopt {form p : Nat} {c : Elem} {pg : Page} (h : WellKeyed form pg)
    {y : Elem × Dom} (hy : y ∈ pg.doc.nodes) (hyp : y.1.ref = p) (hyk : y.2 ≠ Dom.nil)
    (hcr : c.ref = pg.fresh) (hct : c.tag ∉ fieldTags) (hnone : withId c.id pg = []) :
    WellKeyed form (pg.adopt p c) := by
  have hform : form ≠ c.ref := by have := h.form_lt; omega
  have hpmem : p ∈ pg.doc.els.map Elem.ref :=
    hyp ▸ List.mem_map_of_mem _ (Dom.mem_els_of_mem_nodes hy)
  have hpall : p ∈ (pg.doc.els ++ pg.detached.els).map Elem.ref := by
    rw [List.map_append]; exact List.mem_append_left _ hpmem
  have hcount : ∀ P : Elem → Bool,
      ((pg.adopt p c).doc.els ++ (pg.adopt p c).detached.els).countP P =
        (pg.doc.els ++ pg.detached.els).countP P + (if P c = true then 1 else 0) := by
    intro P
    have h1 := countP_ref_eq_one h.refs_nodup hpall
    rw [List.countP_append] at h1
    simp only [Page.adopt, Page.appendChild, List.countP_append, Dom.els_appendChild_countP]
    simp only [Dom.els, List.append_nil, List.countP_cons, List.countP_nil, Nat.zero_add]
    have h2 : (List.countP (fun e => decide (e.ref = p)) pg.doc.els) * (if P c = true then 1 else 0)
        + (List.countP (fun e => decide (e.ref = p)) pg.detached.els) * (if P c = true then 1 else 0)
        = (if P c = true then 1 else 0) := by
      rw [← Nat.add_mul, h1, Nat.one_mul]
    omega
  have hfresh0 : ∀ e ∈ pg.doc.els ++ pg.detached.els, e.ref ≠ c.ref := by
    intro e he; have := h.refs_fresh e he; omega
  refine ⟨?_, ?_, ?_, ?_, ?_, ?_⟩
  · have := h.attached
    simp only [Page.adopt, Page.appendChild,
      Dom.find_appendChild form p _ _ (find_leaf_ne hform)]
    cases hfd : Dom.find form pg.doc with
    | none => rw [hfd] at this; cases this
    | some z => rfl
  · apply nodup_of_countP_ref
    intro a
    rw [hcount]
    by_cases hac : c.ref = a
    · have : (pg.doc.els ++ pg.detached.els).countP (fun e => decide (e.ref = a)) = 0 := by
        rw [List.countP_eq_zero]
        intro e he
        have := hfresh0 e he
        simp only [decide_eq_true_eq]
        omega
      simp [this, hac]
    · have := countP_ref_le_one h.refs_nodup a
      simp only [decide_eq_true_eq, hac, if_false, Nat.add_zero]
      exact this
  · intro e he
    have hfr : (pg.adopt p c).fresh = pg.fresh + 1 := rfl
    rw [hfr]
    simp only [Page.adopt, Page.appendChild, List.mem_append] at he
    have key : e ∈ pg.doc.els ++ pg.detached.els ∨ e = c := by
      rcases he with he | he
      · rcases Dom.mem_els_appendChild he with h1 | h1
        · exact Or.inl (List.mem_append_left _ h1)
        · exact Or.inr (by simpa [Dom.els] using h1)
      · rcases Dom.mem_els_appendChild he with h1 | h1
        · exact Or.inl (List.mem_append_right _ h1)
        · exact Or.inr (by simpa [Dom.els] using h1)
    rcases key with h1 | h1
    · have := h.refs_fresh e h1; omega
    · rw [h1, hcr]; omega
  · have := h.ids_nodup
    rw [fields_adopt pg hform hct]
    have e1 : (querySelectorAllFields form pg).map (fun f => (pg.adopt p c).idOf f)
        = (querySelectorAllFields form pg).map (fun f => pg.idOf f) := by
      apply List.map_congr_left
      intro g hg
      have : g ≠ c.ref := by have := h.field_lt hg; omega
      rw [Page.idOf_adopt pg this]
    rw [e1]; exact this
  · intro k hk
    rw [errorKeys_adopt h hcr hct] at hk
    rw [countP_adopt, countP_ref_eq_one h.doc_nodup hpmem]
    by_cases hck : c.id = k
    · have : pg.doc.els.countP (fun e => decide (e.id = k)) = 0 := by
        rw [List.countP_eq_length_filter]
        simp only [withId, hck] at hnone
        rw [hnone]; rfl
      simp [this, hck]
    · have := h.keys_once k hk
      simp [hck]
      exact this
  · intro x hx hk
    rw [errorKeys_adopt h hcr hct] at hk
    rw [els_adopt_doc] at hx
    rcases Dom.mem_nodes_appendChild hx with h1 | ⟨z, hz, rfl⟩
    · simp only [Dom.nodes, List.append_nil, List.mem_singleton] at h1
      subst h1
      exact ⟨rfl, hct⟩
    · simp only [Dom.grown] at hk ⊢
      obtain ⟨h1, h2⟩ := h.keys_leaf z hz hk
      refine ⟨?_, h2⟩
      have hzp : z.1.ref ≠ p := by
        intro hzp
        have := Dom.nodes_inj h.doc_nodup hz hy (hzp.trans hyp.symm)
        rw [this] at h1
        exact hyk h1
      rw [if_neg hzp, h1]; rfl

theorem WellKeyed.key_leaf_ref {form : Nat} {pg : Page} (h : WellKeyed form pg) {e : Elem}
    (he : e ∈ pg.doc.els) (hk : e.id ∈ errorKeys form pg) :
    (e, Dom.nil) ∈ pg.doc.nodes ∧ ∀ x ∈ pg.doc.nodes, x.1.ref = e.ref → x = (e, Dom.nil) := by
  obtain ⟨k, hek⟩ := Dom.exists_node_of_mem_els he
  have hk0 := (h.keys_leaf _ hek hk).1
  simp only at hk0
  subst hk0
  exact ⟨hek, fun x hx hr => Dom.nodes_inj h.doc_nodup hx hek hr⟩

theorem WellKeyed.key_ne_form {form : Nat} {pg : Page} (h : WellKeyed form pg) {e : Elem}
    (he : e ∈ pg.doc.els) (hk : e.id ∈ errorKeys form pg) : form ≠ e.ref := by
  intro hfe
  obtain ⟨hmem, huniq⟩ := h.key_leaf_ref he hk
  obtain ⟨z, hz⟩ := Option.isSome_iff_exists.1 h.attached
  have hz2 := Dom.find_mem hz
  have := huniq z hz2.1 (hz2.2.trans hfe)
  subst this
  simp only [errorKeys, List.mem_map] at hk
  obtain ⟨f, hf, -⟩ := hk
  have hl : pg.lookup form = some (e, Dom.nil) := by simp [Page.lookup, hz]
  simp [querySelectorAllFields, hl, selectFields, Dom.els] at hf

theorem removeEl_eq {form : Nat} {pg : Page} (h : WellKeyed form pg) {e : Elem}
    (he : e ∈ pg.doc.els) (hk : e.id ∈ errorKeys form pg) :
    pg.removeEl e.ref =
      ⟨Dom.remove e.ref pg.doc, pg.detached.append (Dom.node e Dom.nil Dom.nil), pg.fresh⟩ := by
  have := Dom.find_of_mem h.doc_nodup (h.key_leaf_ref he hk).1
  simp only at this
  simp [Page.removeEl, this]

theorem WellKeyed.leaf_cond {form : Nat} {pg : Page} (h : WellKeyed form pg) {e : Elem}
    (he : e ∈ pg.doc.els) (hk : e.id ∈ errorKeys form pg) :
    ∀ x ∈ pg.doc.nodes, x.1.ref = e.ref → x.2 = Dom.nil := by
  intro x hx hr
  rw [(h.key_leaf_ref he hk).2 x hx hr]

theorem lookup_removeEl {form : Nat} {pg : Page} (h : WellKeyed form pg) {e : Elem}
    (he : e ∈ pg.doc.els) (hk : e.id ∈ errorKeys form pg) {x : Nat} (hx : x ≠ e.ref) :
    ((pg.removeEl e.ref).lookup x).map Prod.fst = (pg.lookup x).map Prod.fst := by
  rw [removeEl_eq h he hk]
  simp only [Page.lookup, Dom.find_remove x e.ref pg.doc (h.leaf_cond he hk) hx,
    Dom.find_append, find_leaf_ne hx]
  cases Dom.find x pg.doc with
  | some y => rfl
  | none => simp

theorem idOf_removeEl {form : Nat} {pg : Page} (h : WellKeyed form pg) {e : Elem}
    (he : e ∈ pg.doc.els) (hk : e.id ∈ errorKeys form pg) {x : Nat} (hx : x ≠ e.ref) :
    (pg.removeEl e.ref).idOf x = pg.idOf x := by
  have := lookup_removeEl h he hk hx
  simp only [Page.idOf]
  cases h1 : (pg.removeEl e.ref).lookup x <;> cases h2 : pg.lookup x <;>
    simp [h1, h2] at this ⊢
  exact congrArg Elem.id this

theorem classesOf_removeEl {form : Nat} {pg : Page} (h : WellKeyed form pg) {e : Elem}
    (he : e ∈ pg.doc.els) (hk : e.id ∈ errorKeys form pg) {x : Nat} (hx : x ≠ e.ref) :
    (pg.removeEl e.ref).classesOf x = pg.classesOf x := by
  have := lookup_removeEl h he hk hx
  simp only [Page.classesOf]
  cases h1 : (pg.removeEl e.ref).lookup x <;> cases h2 : pg.lookup x <;>
    simp [h1, h2] at this ⊢
  exact congrArg Elem.classes this

theorem els_removeEl {form : Nat} {pg : Page} (h : WellKeyed form pg) {e : Elem}
    (he : e ∈ pg.doc.els) (hk : e.id ∈ errorKeys form pg) :
    (pg.removeEl e.ref).doc.els = pg.doc.els.filter (fun a => decide (a.ref ≠ e.ref)) := by
  rw [removeEl_eq h he hk]
  exact Dom.els_remove e.ref pg.doc (h.leaf_cond he hk)

theorem filter_filter_of_imp {α : Type} (p q : α → Bool) (l : List α)
    (h : ∀ x ∈ l, p x = true → q x = true) : (l.filter q).filter p = l.filter p := by
  induction l with
  | nil => rfl
  | cons a l ih =>
    have ih2 := ih (fun x hx => h x (List.mem_cons_of_mem _ hx))
    by_cases hq : q a = true
    · simp only [List.filter_cons, hq, if_true]
      by_cases hp : p a = true
      · simp [hp, ih2]
      · simp [hp, ih2]
    · have hp : ¬ p a = true := fun hp => hq (h a (List.mem_cons_self _ _) hp)
      simp [List.filter_cons, hq, hp, ih2]

theorem fields_removeEl {form : Nat} {pg : Page} (h : WellKeyed form pg) {e : Elem}
    (he : e ∈ pg.doc.els) (hk : e.id ∈ errorKeys form pg) :
    querySelectorAllFields form (pg.removeEl e.ref) = querySelectorAllFields form pg := by
  obtain ⟨z, hz⟩ := Option.isSome_iff_exists.1 h.attached
  have hz2 := Dom.find_mem hz
  have hl : pg.lookup form = some z := by simp [Page.lookup, hz]
  have hl2 : (pg.removeEl e.ref).lookup form = some (z.1, Dom.remove e.ref z.2) := by
    rw [removeEl_eq h he hk]
    simp [Page.lookup, Dom.find_remove form e.ref pg.doc (h.leaf_cond he hk)
      (h.key_ne_form he hk), hz]
  simp only [querySelectorAllFields, hl, hl2, selectFields]
  have hleafz : ∀ x ∈ z.2.nodes, x.1.ref = e.ref → x.2 = Dom.nil := fun x hx =>
    h.leaf_cond he hk x (Dom.nodes_sub hz2.1 x hx)
  rw [Dom.els_remove e.ref z.2 hleafz, filter_filter_of_imp]
  intro a ha hta
  simp only [decide_eq_true_eq] at hta ⊢
  intro har
  have ha2 : a ∈ pg.doc.els := Dom.els_sub hz2.1 a ha
  have := Dom.els_inj h.doc_nodup ha2 he har
  subst this
  obtain ⟨k, hek⟩ := Dom.exists_node_of_mem_els he
  exact (h.keys_leaf _ hek hk).2 hta

theorem withId_removeEl_ne {form : Nat} {pg : Page} (h : WellKeyed form pg) {e : Elem}
    (he : e ∈ pg.doc.els) (hk : e.id ∈ errorKeys form pg) {k : String} (hne : e.id ≠ k) :
    withId k (pg.removeEl e.ref) = withId k pg := by
  simp only [withId, els_removeEl h he hk]
  apply filter_filter_of_imp
  intro a ha hka
  simp only [decide_eq_true_eq] at hka ⊢
  intro har
  have := Dom.els_inj h.doc_nodup ha he har
  subst this
  exact hne hka

theorem withId_removeEl_self {form : Nat} {pg : Page} (h : WellKeyed form pg) {e : Elem}
    (he : e ∈ pg.doc.els) (hk : e.id ∈ errorKeys form pg) :
    withId e.id (pg.removeEl e.ref) = [] := by
  simp only [withId, els_removeEl h he hk, List.filter_filter, List.filter_eq_nil_iff]
  intro a ha
  simp only [Bool.and_eq_true, decide_eq_true_eq, not_and, not_not]
  intro hida
  have h1 := h.keys_once e.id hk
  have ha1 : a ∈ withId e.id pg := by
    simp only [withId, List.mem_filter, decide_eq_true_eq]; exact ⟨ha, hida⟩
  have he1 : e ∈ withId e.id pg := by
    simp only [withId, List.mem_filter, decide_eq_true_eq]; exact ⟨he, trivial⟩
  rw [List.countP_eq_length_filter] at h1
  have hlen : (withId e.id pg).length ≤ 1 := h1
  match hw : withId e.id pg, hlen with
  | [], _ => rw [hw] at he1; cases he1
  | [x], _ =>
    rw [hw] at ha1 he1
    simp only [List.mem_singleton] at ha1 he1
    rw [ha1, he1]

theorem errorKeys_removeEl {form : Nat} {pg : Page} (h : WellKeyed form pg) {e : Elem}
    (he : e ∈ pg.doc.els) (hk : e.id ∈ errorKeys form pg) :
    errorKeys form (pg.removeEl e.ref) = errorKeys form pg := by
  simp only [errorKeys, fields_removeEl h he hk]
  apply List.map_congr_left
  intro g hg
  exact congrArg errorId
    (idOf_removeEl h he hk (fun hge => h.key_not_field he hk hg hge.symm))

theorem WellKeyed.removeEl {form : Nat} {pg : Page} (h : WellKeyed form pg) {e : Elem}
    (he : e ∈ pg.doc.els) (hk : e.id ∈ errorKeys form pg) :
    WellKeyed form (pg.removeEl e.ref) := by
  have hels := els_removeEl h he hk
  have hdet : (pg.removeEl e.ref).detached.els = pg.detached.els ++ [e] := by
    rw [removeEl_eq h he hk]; simp [Dom.els_append, Dom.els]
  have hfr : (pg.removeEl e.ref).fresh = pg.fresh := by
    rw [removeEl_eq h he hk]
  refine ⟨?_, ?_, ?_, ?_, ?_, ?_⟩
  · have := h.attached
    rw [removeEl_eq h he hk]
    simp only [Dom.find_remove form e.ref pg.doc (h.leaf_cond he hk) (h.key_ne_form he hk)]
    cases hfd : Dom.find form pg.doc with
    | none => rw [hfd] at this; cases this
    | some z => rfl
  · apply nodup_of_countP_ref
    intro a
    rw [hels, hdet]
    have h0 := countP_ref_le_one h.refs_nodup a
    simp only [List.countP_append, List.countP_cons, List.countP_nil, Nat.zero_add,
      List.countP_filter] at h0 ⊢
    by_cases hae : e.ref = a
    · subst hae
      have h1 : pg.doc.els.countP
          (fun x => decide (x.ref = e.ref) && decide (x.ref ≠ e.ref)) = 0 := by
        rw [List.countP_eq_zero]
        intro x _
        simp only [Bool.and_eq_true, decide_eq_true_eq, not_and, not_not]
        intro hxa; exact hxa
      have h2 : 0 < pg.doc.els.countP (fun x => decide (x.ref = e.ref)) := by
        rw [List.countP_pos_iff]; exact ⟨e, he, by simp⟩
      rw [h1]
      simp only [decide_True, if_true]
      omega
    · have h1 : pg.doc.els.countP (fun x => decide (x.ref = a) && decide (x.ref ≠ e.ref))
          ≤ pg.doc.els.countP (fun x => decide (x.ref = a)) := by
        apply List.countP_mono_left
        intro x _ hx
        simp only [Bool.and_eq_true, decide_eq_true_eq] at hx ⊢
        exact hx.1
      simp only [hae, decide_False, if_false, Bool.false_eq_true]
      omega
  · intro a ha
    rw [hfr]
    rw [hels, hdet] at ha
    apply h.refs_fresh
    simp only [List.mem_append, List.mem_filter, List.mem_singleton] at ha ⊢
    rcases ha with ha | ha | ha
    · exact Or.inl ha.1
    · exact Or.inr ha
    · exact Or.inl (ha ▸ he)
  · have := h.ids_nodup
    rw [fields_removeEl h he hk]
    have e1 : (querySelectorAllFields form pg).map (fun f => (pg.removeEl e.ref).idOf f)
        = (querySelectorAllFields form pg).map (fun f => pg.idOf f) := by
      apply List.map_congr_left
      intro g hg
      exact idOf_removeEl h he hk (fun hge => h.key_not_field he hk hg hge.symm)
    rw [e1]; exact this
  · intro k hk2
    rw [errorKeys_removeEl h he hk] at hk2
    rw [hels]
    exact Nat.le_trans (List.Sublist.countP_le _ (List.filter_sublist _)) (h.keys_once k hk2)
  · intro x hx hk2
    rw [errorKeys_removeEl h he hk] at hk2
    rw [removeEl_eq h he hk] at hx
    simp only [Dom.nodes_remove e.ref pg.doc (h.leaf_cond he hk), List.mem_map,
      List.mem_filter] at hx
    obtain ⟨y, ⟨hy, -⟩, rfl⟩ := hx
    obtain ⟨h1, h2⟩ := h.keys_leaf y hy hk2
    exact ⟨by simp only [h1]; rfl, h2⟩

theorem self_key_mem {form : Nat} {pg : Page} {f : Nat}
    (hf : f ∈ querySelectorAllFields form pg) : errorId (pg.idOf f) ∈ errorKeys form pg :=
  List.mem_map.2 ⟨f, hf, rfl⟩

theorem WellKeyed.key_ne {form : Nat} {pg : Page} (h : WellKeyed form pg) {f g : Nat}
    (hf : f ∈ querySelectorAllFields form pg) (hg : g ∈ querySelectorAllFields form pg)
    (hne : g ≠ f) : errorId (pg.idOf g) ≠ errorId (pg.idOf f) := by
  intro he
  have := List.inj_on_of_nodup_map h.ids_nodup hg hf (errorId_inj he)
  exact hne this

theorem withId_eq_nil_iff {s : String} (hs : s ≠ "") (pg : Page) :
    withId s pg = [] ↔ pg.doc.getElementById s = none := by
  rw [getElementById_eq_head hs]
  simp only [withId]
  cases List.filter (fun e => decide (e.id = s)) pg.doc.els <;> simp

theorem highlightField_invalid_new {form : Nat} {pg : Page} (v : Validity) {f : Nat}
    (h : WellKeyed form pg) (hf : f ∈ querySelectorAllFields form pg)
    (hv : v.valid f = false) (hnone : withId (errorId (pg.idOf f)) pg = []) :
    ∃ p y, pg.doc.parentOf f = some p ∧ y ∈ pg.doc.nodes ∧ y.1.ref = p ∧ f ∈ Dom.topRefs y.2 ∧
      highlightField v f pg = Except.ok
        ((pg.modify f (fun e => e.withClasses (classListAdd marker))).adopt p
          ⟨pg.fresh, "p", errorId (pg.idOf f), ["text-red-500", "text-xs", "mt-1"],
            v.validationMessage f⟩) := by
  obtain ⟨x, hx, hr, ht, hl, p, hp⟩ := h.field hf
  obtain ⟨y, hy, hyp, hyf⟩ := Dom.parentOf_some hp
  refine ⟨p, y, hp, hy, hyp, hyf, ?_⟩
  have hw := withId_modify_field h hf (self_key_mem hf) (classListAdd marker)
  rw [hnone] at hw
  have hget := (withId_eq_nil_iff (errorId_ne_empty _) _).1 hw
  have hpn : (pg.modify f (fun e => e.withClasses (classListAdd marker))).parentNode f = some p := by
    rw [Page.parentNode_modify]; simp [Page.parentNode, hp]
  have hmsg : errorMsg v f (pg.modify f (fun e => e.withClasses (classListAdd marker))) =
      ⟨pg.fresh, "p", errorId (pg.idOf f), ["text-red-500", "text-xs", "mt-1"],
        v.validationMessage f⟩ := by
    simp only [errorMsg, Page.idOf_modify]; rfl
  simp only [highlightField, hv, if_true, Page.idOf_modify, hget, hpn, hmsg]
  rfl

theorem highlightField_invalid_old {form : Nat} {pg : Page} (v : Validity) {f : Nat}
    (h : WellKeyed form pg) (hf : f ∈ querySelectorAllFields form pg)
    (hv : v.valid f = false) (hsome : withId (errorId (pg.idOf f)) pg ≠ []) :
    highlightField v f pg =
      Except.ok (pg.modify f (fun e => e.withClasses (classListAdd marker))) := by
  have hw := withId_modify_field h hf (self_key_mem hf) (classListAdd marker)
  have hget : (pg.modify f (fun e => e.withClasses (classListAdd marker))).doc.getElementById
      (errorId (pg.idOf f)) ≠ none := by
    intro hn
    have := (withId_eq_nil_iff (errorId_ne_empty _) _).2 hn
    rw [hw] at this
    exact hsome this
  simp only [highlightField, hv, if_true, Page.idOf_modify]
  cases hg : (pg.modify f (fun e => e.withClasses (classListAdd marker))).doc.getElementById
      (errorId (pg.idOf f)) with
  | none => exact absurd hg hget
  | some e => rfl

theorem highlightField_valid {pg : Page} (v : Validity) {f : Nat} (hv : v.valid f = true) :
    highlightField v f pg = Except.ok (inputListener v f pg) := by
  simp only [highlightField, inputListener, hv, if_true, Bool.true_eq_false, if_false]
  cases (pg.modify f (fun e => e.withClasses (classListRemove marker))).doc.getElementById
      (errorId ((pg.modify f (fun e => e.withClasses (classListRemove marker))).idOf f)) <;> rfl

theorem Kept.refl {form : Nat} {pg : Page} (h : WellKeyed form pg) : Kept form pg pg :=
  ⟨h, rfl, fun _ _ => rfl, Nat.le_refl _⟩

theorem Kept.trans {form : Nat} {a b c : Page} (h1 : Kept form a b) (h2 : Kept form b c) :
    Kept form a c :=
  ⟨h2.wk, h2.fields.trans h1.fields,
    fun g hg => (h2.ids g (h1.fields ▸ hg)).trans (h1.ids g hg),
    Nat.le_trans h1.fresh h2.fresh⟩

theorem Kept.keys {form : Nat} {a b : Page} (h : Kept form a b) :
    errorKeys form b = errorKeys form a := by
  simp only [errorKeys, h.fields]
  apply List.map_congr_left
  intro g hg
  rw [h.ids g hg]

theorem Kept.of_modify {form : Nat} {pg : Page} (h : WellKeyed form pg) (r : Nat)
    (g : List String → List String) :
    Kept form pg (pg.modify r (fun e => e.withClasses g)) :=
  ⟨h.modify r g, fields_modify form r g pg, fun x _ => Page.idOf_modify x r g pg, Nat.le_refl _⟩

theorem Kept.of_removeEl {form : Nat} {pg : Page} (h : WellKeyed form pg) {e : Elem}
    (he : e ∈ pg.doc.els) (hk : e.id ∈ errorKeys form pg) :
    Kept form pg (pg.removeEl e.ref) :=
  ⟨h.removeEl he hk, fields_removeEl h he hk,
    fun g hg => idOf_removeEl h he hk (fun hge => h.key_not_field he hk hg hge.symm),
    by rw [removeEl_eq h he hk]⟩

theorem Kept.of_adopt {form p : Nat} {c : Elem} {pg : Page} (h : WellKeyed form pg)
    {y : Elem × Dom} (hy : y ∈ pg.doc.nodes) (hyp : y.1.ref = p) (hyk : y.2 ≠ Dom.nil)
    (hcr : c.ref = pg.fresh) (hct : c.tag ∉ fieldTags) (hnone : withId c.id pg = []) :
    Kept form pg (pg.adopt p c) := by
  have hform : form ≠ c.ref := by have := h.form_lt; omega
  refine ⟨h.adopt hy hyp hyk hcr hct hnone, fields_adopt pg hform hct, ?_, Nat.le_succ _⟩
  intro g hg
  have : g ≠ c.ref := by have := h.field_lt hg; omega
  exact Page.idOf_adopt pg this

theorem inputListener_step {form : Nat} {pg : Page} (v : Validity) {f : Nat}
    (h : WellKeyed form pg) (hf : f ∈ querySelectorAllFields form pg)
    (hv : v.valid f = true) :
    Step form true (v.validationMessage f) f pg (inputListener v f pg) := by
  obtain ⟨x, hx, hr, ht, hl, -⟩ := h.field hf
  have hls : (pg.lookup f).isSome = true := by rw [hl]; rfl
  have h1 := h.modify f (classListRemove marker)
  have k1 := Kept.of_modify h f (classListRemove marker)
  have hf1 : f ∈ querySelectorAllFields form
      (pg.modify f (fun e => e.withClasses (classListRemove marker))) := by
    rw [k1.fields]; exact hf
  simp only [inputListener, hv, if_true, Page.idOf_modify]
  cases hg : (pg.modify f (fun e => e.withClasses (classListRemove marker))).doc.getElementById
      (errorId (pg.idOf f)) with
  | none =>
    simp only
    refine ⟨k1, ?_, ?_, ?_, ?_, ?_⟩
    · simp [Page.classesOf_modify_self _ hls]
    · intro g hgF hne
      exact ⟨Page.classesOf_modify_ne hne _ _,
        withId_modify_field h hf (self_key_mem hgF) _⟩
    · intro _
      exact (withId_eq_nil_iff (errorId_ne_empty _) _).2 hg
    · intro hc; cases hc
    · intro hc; cases hc
  | some e =>
    simp only
    obtain ⟨he, hid⟩ := getElementById_some hg
    have hk : e.id ∈ errorKeys form
        (pg.modify f (fun e => e.withClasses (classListRemove marker))) := by
      rw [hid, k1.keys]; exact self_key_mem hf
    have k2 := Kept.of_removeEl h1 he hk
    refine ⟨k1.trans k2, ?_, ?_, ?_, ?_, ?_⟩
    · rw [classesOf_removeEl h1 he hk (fun hfe => h1.key_not_field he hk hf1 hfe.symm)]
      simp [Page.classesOf_modify_self _ hls]
    · intro g hgF hne
      have hg1 : g ∈ querySelectorAllFields form
          (pg.modify f (fun e => e.withClasses (classListRemove marker))) := by
        rw [k1.fields]; exact hgF
      constructor
      · rw [classesOf_removeEl h1 he hk (fun hge => h1.key_not_field he hk hg1 hge.symm)]
        exact Page.classesOf_modify_ne hne _ _
      · rw [withId_removeEl_ne h1 he hk (by rw [hid]; exact (h.key_ne hf hgF hne).symm)]
        exact withId_modify_field h hf (self_key_mem hgF) _
    · intro _
      rw [← hid]
      exact withId_removeEl_self h1 he hk
    · intro hc; cases hc
    · intro hc; cases hc

theorem ne_nil_of_mem_topRefs {x : Nat} {d : Dom} (h : x ∈ d.topRefs) : d ≠ Dom.nil := by
  intro hd; rw [hd] at h; simp [Dom.topRefs] at h

theorem p_not_field : "p" ∉ fieldTags := by decide

theorem highlightField_step {form : Nat} {pg : Page} (v : Validity) {f : Nat}
    (h : WellKeyed form pg) (hf : f ∈ querySelectorAllFields form pg) :
    ∃ pg', highlightField v f pg = Except.ok pg' ∧
      Step form (v.valid f) (v.validationMessage f) f pg pg' := by
  cases hv : v.valid f with
  | true => exact ⟨_, highlightField_valid v hv, inputListener_step v h hf hv⟩
  | false =>
    obtain ⟨x, hx, hr, ht, hl, -⟩ := h.field hf
    have hls : (pg.lookup f).isSome = true := by rw [hl]; rfl
    have h1 := h.modify f (classListAdd marker)
    have k1 := Kept.of_modify h f (classListAdd marker)
    by_cases hnone : withId (errorId (pg.idOf f)) pg = []
    · obtain ⟨p, y, hp, hy, hyp, hyf, heq⟩ := highlightField_invalid_new v h hf hv hnone
      refine ⟨_, heq, ?_⟩
      have hy1 : (restyled f (classListAdd marker) y.1,
          Dom.modify f (fun e => e.withClasses (classListAdd marker)) y.2) ∈
          (pg.modify f (fun e => e.withClasses (classListAdd marker))).doc.nodes := by
        simp only [Page.modify, Dom.nodes_modify, List.mem_map]
        exact ⟨y, hy, rfl⟩
      have hyk : Dom.modify f (fun e => e.withClasses (classListAdd marker)) y.2 ≠ Dom.nil := by
        apply ne_nil_of_mem_topRefs (x := f)
        rw [Dom.topRefs_modify f _ (fun e => withClasses_ref e _)]
        exact hyf
      have hnone1 : withId (errorId (pg.idOf f))
          (pg.modify f (fun e => e.withClasses (classListAdd marker))) = [] := by
        rw [withId_modify_field h hf (self_key_mem hf)]; exact hnone
      have hflt := h.field_lt hf
      have k2 := Kept.of_adopt (p := p)
        (c := ⟨pg.fresh, "p", errorId (pg.idOf f), ["text-red-500", "text-xs", "mt-1"],
          v.validationMessage f⟩) h1 hy1 (by simpa using hyp) hyk rfl p_not_field hnone1
      refine ⟨k1.trans k2, ?_, ?_, ?_, ?_, ?_⟩
      · rw [Page.classesOf_adopt _ (by simp only; omega)]
        simp [Page.classesOf_modify_self _ hls]
      · intro g hgF hne
        have hglt := h.field_lt hgF
        constructor
        · rw [Page.classesOf_adopt _ (by simp only; omega)]
          exact Page.classesOf_modify_ne hne _ _
        · rw [withId_adopt_ne _ (by simp only; exact (h.key_ne hf hgF hne).symm)]
          exact withId_modify_field h hf (self_key_mem hgF) _
      · intro hc; cases hc
      · intro _ hc; exact absurd hnone hc
      · intro _ _
        refine ⟨?_, rfl⟩
        have hpmem : p ∈ (pg.modify f (fun e => e.withClasses (classListAdd marker))).doc.els.map
            Elem.ref := by
          have := List.mem_map_of_mem Elem.ref (Dom.mem_els_of_mem_nodes hy1)
          simpa [hyp] using this
        exact withId_adopt_self (c := ⟨pg.fresh, "p", errorId (pg.idOf f),
          ["text-red-500", "text-xs", "mt-1"], v.validationMessage f⟩) h1.doc_nodup hpmem hnone1
    · refine ⟨_, highlightField_invalid_old v h hf hv hnone, k1, ?_, ?_, ?_, ?_, ?_⟩
      · simp [Page.classesOf_modify_self _ hls]
      · intro g hgF hne
        exact ⟨Page.classesOf_modify_ne hne _ _,
          withId_modify_field h hf (self_key_mem hgF) _⟩
      · intro hc; cases hc
      · intro _ _
        exact ⟨withId_modify_field h hf (self_key_mem hf) _, rfl⟩
      · intro _ hc; exact absurd hc hnone

theorem forEachField_swept {form : Nat} (v : Validity) (L : List Nat) :
    ∀ {pg : Page}, WellKeyed form pg → (∀ g ∈ L, g ∈ querySelectorAllFields form pg) →
      L.Nodup →
      ∃ pg', forEachField v L pg = (pg', false) ∧ fieldsRead v L pg = L ∧
        Swept form v L pg pg' := by
  induction L with
  | nil =>
    intro pg h _ _
    exact ⟨pg, rfl, rfl, Kept.refl h, fun _ hg => (by cases hg), fun _ _ _ => ⟨rfl, rfl⟩,
      fun _ hg => (by cases hg), fun _ hg => (by cases hg), fun _ hg => (by cases hg)⟩
  | cons f L ih =>
    intro pg h hL hnd
    have hf : f ∈ querySelectorAllFields form pg := hL f (List.mem_cons_self _ _)
    obtain ⟨pg1, hstep, s⟩ := highlightField_step v h hf
    have hfL : f ∉ L := (List.nodup_cons.1 hnd).1
    have hL1 : ∀ g ∈ L, g ∈ querySelectorAllFields form pg1 := fun g hg => by
      rw [s.kept.fields]; exact hL g (List.mem_cons_of_mem _ hg)
    obtain ⟨pg2, hrun, hread, w⟩ := ih s.kept.wk hL1 (List.nodup_cons.1 hnd).2
    have hf1 : f ∈ querySelectorAllFields form pg1 := by rw [s.kept.fields]; exact hf
    have hidf := s.kept.ids f hf
    have hne : ∀ g ∈ L, g ≠ f := fun g hg hgf => hfL (hgf ▸ hg)
    refine ⟨pg2, ?_, ?_, s.kept.trans w.kept, ?_, ?_, ?_, ?_, ?_⟩
    · simp only [forEachField, hstep, hrun]
    · simp only [fieldsRead, hstep, hread]
    · intro g hg
      rcases List.mem_cons.1 hg with hgf | hgL
      · subst hgf
        rw [(w.untouched g hf1 hfL).1, s.classes]
      · rw [w.classes_in g hgL, (s.others g (hL g hg) (hne g hgL)).1]
    · intro g hgF hg
      have hgf : g ≠ f := fun e => hg (e ▸ List.mem_cons_self _ _)
      have hgL : g ∉ L := fun e => hg (List.mem_cons_of_mem _ e)
      have hg1 : g ∈ querySelectorAllFields form pg1 := by rw [s.kept.fields]; exact hgF
      have := w.untouched g hg1 hgL
      rw [s.kept.ids g hgF] at this
      exact ⟨this.1.trans (s.others g hgF hgf).1, this.2.trans (s.others g hgF hgf).2⟩
    · intro g hg hv
      rcases List.mem_cons.1 hg with hgf | hgL
      · subst hgf
        have := (w.untouched g hf1 hfL).2
        rw [hidf] at this
        rw [this]
        exact s.cleared hv
      · have := w.cleared g hgL hv
        rw [s.kept.ids g (hL g hg)] at this
        exact this
    · intro g hg hv hsome
      rcases List.mem_cons.1 hg with hgf | hgL
      · subst hgf
        have := (w.untouched g hf1 hfL).2
        rw [hidf] at this
        rw [this]
        exact (s.stays hv hsome).1
      · have ho := (s.others g (hL g hg) (hne g hgL)).2
        have := w.stays g hgL hv
        rw [s.kept.ids g (hL g hg), ho] at this
        exact this hsome
    · intro g hg hv hnone
      rcases List.mem_cons.1 hg with hgf | hgL
      · subst hgf
        have := (w.untouched g hf1 hfL).2
        rw [hidf] at this
        have hc := s.created hv hnone
        have hfr := w.kept.fresh
        exact ⟨pg.fresh, Nat.le_refl _, by omega, by rw [this]; exact hc.1⟩
      · have ho := (s.others g (hL g hg) (hne g hgL)).2
        have := w.created g hgL hv
        rw [s.kept.ids g (hL g hg), ho] at this
        obtain ⟨r, hr1, hr2, hr3⟩ := this hnone
        have hfr := s.kept.fresh
        exact ⟨r, by omega, hr2, hr3⟩

theorem WellKeyed.fields_nodup {form : Nat} {pg : Page} (h : WellKeyed form pg) :
    (querySelectorAllFields form pg).Nodup :=
  List.Nodup.of_map _ h.ids_nodup

theorem submitListener_valid {v : Validity} {form : Nat} {pg : Page}
    (hval : checkValidity v form = true) :
    submitListener v form pg = ⟨pg, false, false⟩ := by
  simp [submitListener, hval]

theorem submitListener_invalid {v : Validity} {form : Nat} {pg : Page}
    (h : WellKeyed form pg) (hinv : checkValidity v form = false) :
    ∃ pg', submitListener v form pg = ⟨pg', true, false⟩ ∧
      fieldsRead v (querySelectorAllFields form pg) pg = querySelectorAllFields form pg ∧
      Swept form v (querySelectorAllFields form pg) pg pg' := by
  obtain ⟨pg', hrun, hread, w⟩ :=
    @forEachField_swept form v (querySelectorAllFields form pg) pg h (fun _ hg => hg)
      h.fields_nodup
  exact ⟨pg', by simp [submitListener, hinv, hrun], hread, w⟩

theorem classListAdd_mem (c : String) (cs : List String) : c ∈ classListAdd c cs := by
  unfold classListAdd
  split
  · assumption
  · simp

theorem classListRemove_not_mem (c : String) (cs : List String) :
    c ∉ classListRemove c cs := by
  simp [classListRemove]

theorem classListAdd_of_mem {c : String} {cs : List String} (h : c ∈ cs) :
    classListAdd c cs = cs := by
  simp [classListAdd, h]

theorem classListRemove_of_not_mem {c : String} {cs : List String} (h : c ∉ cs) :
    classListRemove c cs = cs := by
  simp only [classListRemove, List.filter_eq_self]
  intro a ha
  simp only [ne_eq, decide_eq_true_eq]
  intro hac; exact h (hac ▸ ha)

theorem Page.modify_eq_self {form : Nat} {pg : Page} (h : WellKeyed form pg) {f : Nat}
    (hf : f ∈ querySelectorAllFields form pg) (g : List String → List String)
    (hg : g (pg.classesOf f) = pg.classesOf f) :
    pg.modify f (fun e => e.withClasses g) = pg := by
  obtain ⟨x, hx, hr, -, hl, -⟩ := h.field hf
  have hcls : pg.classesOf f = x.1.classes := by simp [Page.classesOf, hl]
  have hnd := h.refs_nodup
  rw [List.map_append] at hnd
  have hdoc : Dom.modify f (fun e => e.withClasses g) pg.doc = pg.doc := by
    apply Dom.modify_id
    intro e he her
    have := Dom.els_inj h.doc_nodup he (Dom.mem_els_of_mem_nodes hx) (her.trans hr.symm)
    subst this
    rw [hcls] at hg
    simp only [Elem.withClasses, hg]
  have hdet : Dom.modify f (fun e => e.withClasses g) pg.detached = pg.detached := by
    apply Dom.modify_id
    intro e he her
    exfalso
    have h1 : f ∈ pg.doc.els.map Elem.ref :=
      hr ▸ List.mem_map_of_mem _ (Dom.mem_els_of_mem_nodes hx)
    have h2 : f ∈ pg.detached.els.map Elem.ref := her ▸ List.mem_map_of_mem _ he
    exact (List.nodup_append.1 hnd).2.2 h1 h2
  simp only [Page.modify, hdoc, hdet]

theorem highlightField_settled {form : Nat} {pg : Page} (v : Validity) {f : Nat}
    (h : WellKeyed form pg) (hf : f ∈ querySelectorAllFields form pg)
    (hs : Settled v pg f) : highlightField v f pg = Except.ok pg := by
  unfold Settled at hs
  cases hv : v.valid f with
  | true =>
    simp only [hv, if_true] at hs
    rw [highlightField_valid v hv]
    simp only [inputListener, hv, if_true,
      Page.modify_eq_self h hf _ (classListRemove_of_not_mem hs.1),
      (withId_eq_nil_iff (errorId_ne_empty _) _).1 hs.2]
  | false =>
    simp only [hv, Bool.false_eq_true, if_false] at hs
    rw [highlightField_invalid_old v h hf hv hs.2,
      Page.modify_eq_self h hf _ (classListAdd_of_mem hs.1)]

theorem forEachField_settled {form : Nat} {pg : Page} (v : Validity)
    (h : WellKeyed form pg) (L : List Nat)
    (hL : ∀ g ∈ L, g ∈ querySelectorAllFields form pg ∧ Settled v pg g) :
    forEachField v L pg = (pg, false) := by
  induction L with
  | nil => rfl
  | cons f L ih =>
    have hf := hL f (List.mem_cons_self _ _)
    simp only [forEachField, highlightField_settled v h hf.1 hf.2]
    exact ih (fun g hg => hL g (List.mem_cons_of_mem _ hg))

theorem Swept.settled {form : Nat} {v : Validity} {pg pg' : Page}
    (w : Swept form v (querySelectorAllFields form pg) pg pg') :
    ∀ g ∈ querySelectorAllFields form pg, Settled v pg' g := by
  intro g hg
  unfold Settled
  rw [w.kept.ids g hg, w.classes_in g hg]
  cases hv : v.valid g with
  | true =>
    simp only [if_true]
    exact ⟨classListRemove_not_mem _ _, w.cleared g hg hv⟩
  | false =>
    simp only [Bool.false_eq_true, if_false]
    refine ⟨classListAdd_mem _ _, ?_⟩
    by_cases hn : withId (errorId (pg.idOf g)) pg = []
    · obtain ⟨r, -, -, hr⟩ := w.created g hg hv hn
      rw [hr]; simp
    · rw [w.stays g hg hv hn]; exact hn

theorem countP_mem_keys (l : List Elem) (K : List String) (hnd : K.Nodup) :
    l.countP (fun e => decide (e.id ∈ K)) =
      (K.map (fun k => l.countP (fun e => decide (e.id = k)))).sum := by
  induction K with
  | nil => simp
  | cons k K ih =>
    have hk : k ∉ K := (List.nodup_cons.1 hnd).1
    rw [List.map_cons, List.sum_cons, ← ih (List.nodup_cons.1 hnd).2]
    clear ih
    induction l with
    | nil => rfl
    | cons a l ihl =>
      simp only [List.countP_cons, ihl]
      by_cases h1 : a.id = k
      · have h2 : a.id ∉ K := h1 ▸ hk
        simp [h1, hk]
        omega
      · by_cases h2 : a.id ∈ K
        · simp [h1, h2]; omega
        · simp [h1, h2]

theorem sum_map_congr {F : List Nat} {a b : Nat → Nat} (h : ∀ f ∈ F, a f = b f) :
    (F.map a).sum = (F.map b).sum := by
  rw [List.map_congr_left h]

theorem sum_invalid (v : Validity) (F : List Nat) :
    (F.map (fun f => if v.valid f = true then 0 else 1)).sum =
      (F.filter (fun f => !v.valid f)).length := by
  induction F with
  | nil => rfl
  | cons f F ih =>
    cases hv : v.valid f <;> simp [List.filter_cons, hv, ih]; omega

theorem WellKeyed.keys_nodup {form : Nat} {pg : Page} (h : WellKeyed form pg) :
    (errorKeys form pg).Nodup := by
  have := List.Nodup.map (f := errorId) (fun a b hab => errorId_inj hab) h.ids_nodup
  simpa only [errorKeys, List.map_map, Function.comp_def] using this

theorem Swept.count {form : Nat} {v : Validity} {pg pg' : Page}
    (w : Swept form v (querySelectorAllFields form pg) pg pg') :
    ∀ f ∈ querySelectorAllFields form pg,
      (withId (errorId (pg.idOf f)) pg').length = if v.valid f = true then 0 else 1 := by
  intro f hf
  cases hv : v.valid f with
  | true => simp [w.cleared f hf hv]
  | false =>
    simp only [Bool.false_eq_true, if_false]
    have hs := w.settled f hf
    unfold Settled at hs
    rw [w.kept.ids f hf] at hs
    simp only [hv, Bool.false_eq_true, if_false] at hs
    have hk : errorId (pg.idOf f) ∈ errorKeys form pg' := by
      rw [w.kept.keys]; exact self_key_mem hf
    have hle := w.kept.wk.keys_once _ hk
    rw [List.countP_eq_length_filter] at hle
    have hle2 : (withId (errorId (pg.idOf f)) pg').length ≤ 1 := hle
    have hpos : 0 < (withId (errorId (pg.idOf f)) pg').length :=
      List.length_pos.2 hs.2
    omega

theorem errorNodes_length {form : Nat} {v : Validity} {pg pg' : Page}
    (h : WellKeyed form pg)
    (w : Swept form v (querySelectorAllFields form pg) pg pg') :
    (errorNodes form pg').length = (invalidFields v form pg).length := by
  simp only [errorNodes, invalidFields]
  rw [← sum_invalid, ← List.countP_eq_length_filter, w.kept.keys,
    countP_mem_keys _ _ h.keys_nodup]
  simp only [errorKeys, List.map_map]
  apply sum_map_congr
  intro f hf
  have := w.count f hf
  simp only [withId, ← List.countP_eq_length_filter] at this
  exact this

theorem getElementById_of_withId {i : String} {pg pg' : Page}
    (h : withId (errorId i) pg' = withId (errorId i) pg) :
    pg'.doc.getElementById (errorId i) = pg.doc.getElementById (errorId i) := by
  rw [getElementById_errorId, getElementById_errorId, h]

theorem loginPage_wellKeyed : WellKeyed 1 loginPage :=
  ⟨by decide, by decide, by decide, by decide, by decide, by decide⟩

theorem lastActedOn_append_skip {f : Nat} {a b : List Obs}
    (h : b.filter (fun o => decide (o.field = f) && (o.bySubmit || o.valid)) = []) :
    lastActedOn f (a ++ b) = lastActedOn f a := by
  simp only [lastActedOn, List.filter_append, h, List.append_nil]

theorem lastActedOn_append_all {f : Nat} {a b : List Obs} {x : Bool}
    (h : b.filter (fun o => decide (o.field = f) && (o.bySubmit || o.valid)) ≠ [])
    (hall : ∀ o ∈ b, o.field = f → o.valid = x) :
    lastActedOn f (a ++ b) = some x := by
  simp only [lastActedOn, List.filter_append, List.getLast?_append]
  cases hl : (b.filter (fun o => decide (o.field = f) && (o.bySubmit || o.valid))).getLast? with
  | none => exact absurd (List.getLast?_eq_none_iff.1 hl) h
  | some o =>
    have := List.mem_of_getLast?_eq_some hl
    simp only [List.mem_filter, Bool.and_eq_true, decide_eq_true_eq] at this
    simp [hall o this.1 this.2.1]

theorem mem_setupFormValidation {form : Nat} {bound : List Nat} {pg : Page}
    (h : (form, bound) ∈ setupFormValidation pg) : bound = querySelectorAllFields form pg := by
  simp only [setupFormValidation, List.mem_map] at h
  obtain ⟨x, -, hx⟩ := h
  cases hx
  rfl

theorem Tracked.step {form : Nat} {pg0 : Page} {st : Page × List Obs}
    (t : Tracked form pg0 st) (ev : Event) :
    Tracked form pg0
      (fire form (querySelectorAllFields form pg0) ev st.1,
        st.2 ++ reads form (querySelectorAllFields form pg0) ev st.1) := by
  obtain ⟨k, hiff⟩ := t
  cases ev with
  | submit v =>
    cases hc : checkValidity v form with
    | true =>
      simp only [fire, reads, hc, submitListener_valid hc, if_true, List.append_nil]
      exact ⟨k, hiff⟩
    | false =>
      obtain ⟨pg', hrun, hread, w⟩ := submitListener_invalid k.wk hc
      simp only [fire, reads, hc, hrun, hread, Bool.false_eq_true, if_false]
      refine ⟨k.trans w.kept, ?_⟩
      intro f hf
      have hf1 : f ∈ querySelectorAllFields form st.1 := by rw [k.fields]; exact hf
      have hs := w.settled f hf1
      unfold Settled at hs
      rw [w.kept.ids f hf1, k.ids f hf] at hs
      have hlast : lastActedOn f (st.2 ++ (querySelectorAllFields form st.1).map
          (fun g => (⟨g, v.valid g, true⟩ : Obs))) = some (v.valid f) := by
        apply lastActedOn_append_all
        · intro hnil
          have : (⟨f, v.valid f, true⟩ : Obs) ∈ ((querySelectorAllFields form st.1).map
              (fun g => (⟨g, v.valid g, true⟩ : Obs))).filter
                (fun o => decide (o.field = f) && (o.bySubmit || o.valid)) := by
            simp only [List.mem_filter, List.mem_map]
            exact ⟨⟨f, hf1, rfl⟩, by simp⟩
          rw [hnil] at this
          cases this
        · intro o ho hof
          simp only [List.mem_map] at ho
          obtain ⟨g, -, rfl⟩ := ho
          simp only at hof
          simp [hof]
      rw [hlast]
      cases hv : v.valid f with
      | true =>
        simp only [hv, if_true] at hs
        simp [hs.2]
      | false =>
        simp only [hv, Bool.false_eq_true, if_false] at hs
        simp [hs.2]
  | input v g =>
    by_cases hg : g ∈ querySelectorAllFields form pg0
    · have hg1 : g ∈ querySelectorAllFields form st.1 := by rw [k.fields]; exact hg
      cases hv : v.valid g with
      | false =>
        simp only [fire, reads, hg, if_true, inputListener, hv, Bool.false_eq_true, if_false]
        refine ⟨k, ?_⟩
        intro f hf
        rw [lastActedOn_append_skip (by simp)]
        exact hiff f hf
      | true =>
        have s := inputListener_step v k.wk hg1 hv
        simp only [fire, reads, hg, if_true, hv]
        refine ⟨k.trans s.kept, ?_⟩
        intro f hf
        by_cases hfg : f = g
        · subst hfg
          have hc := s.cleared rfl
          rw [k.ids f hf] at hc
          rw [hc, lastActedOn_append_all (x := true) (by simp) (by simp)]
          simp
        · have hf1 : f ∈ querySelectorAllFields form st.1 := by rw [k.fields]; exact hf
          have ho := (s.others f hf1 hfg).2
          rw [k.ids f hf] at ho
          rw [ho, lastActedOn_append_skip (by simp [Ne.symm hfg])]
          exact hiff f hf
    · simp only [fire, reads, hg, if_false, List.append_nil]
      exact ⟨k, hiff⟩

theorem Tracked.run {form : Nat} {pg0 : Page} (evs : List Event) :
    ∀ {st : Page × List Obs}, Tracked form pg0 st →
      Tracked form pg0 (runEvents form (querySelectorAllFields form pg0) evs st) := by
  induction evs with
  | nil => intro st t; exact t
  | cons ev evs ih => intro st t; exact ih (t.step ev)

theorem Page.lookup_mem {x : Nat} {pg : Page} {y : Elem × Dom} (h : pg.lookup x = some y) :
    y.1 ∈ pg.doc.els ++ pg.detached.els := by
  simp only [Page.lookup] at h
  cases hd : Dom.find x pg.doc with
  | some z =>
    rw [hd] at h; cases h
    exact List.mem_append_left _ (Dom.mem_els_of_mem_nodes (Dom.find_mem hd).1)
  | none =>
    rw [hd] at h
    exact List.mem_append_right _ (Dom.mem_els_of_mem_nodes (Dom.find_mem h).1)

theorem Page.removeEl_sub (r : Nat) (pg : Page) :
    ∀ a ∈ (pg.removeEl r).doc.els ++ (pg.removeEl r).detached.els,
      a ∈ pg.doc.els ++ pg.detached.els := by
  intro a ha
  simp only [Page.removeEl] at ha
  cases hd : Dom.find r pg.doc with
  | none => rw [hd] at ha; exact ha
  | some x =>
    rw [hd] at ha
    simp only [Dom.els_append, Dom.els, List.append_nil, List.mem_append, List.mem_cons] at ha
    have hx := (Dom.find_mem hd).1
    rcases ha with ha | ha | ha | ha
    · exact List.mem_append_left _ (Dom.mem_els_remove ha).1
    · exact List.mem_append_right _ ha
    · exact List.mem_append_left _ (ha ▸ Dom.mem_els_of_mem_nodes hx)
    · exact List.mem_append_left _ (Dom.els_sub hx a ha)

theorem Dom.find_isSome_of_mem {d : Dom} {e : Elem} (he : e ∈ d.els) :
    (d.find e.ref).isSome = true := by
  rw [Dom.find_eq, List.find?_isSome]
  obtain ⟨k, hk⟩ := Dom.exists_node_of_mem_els he
  exact ⟨(e, k), hk, by simp⟩

theorem mem_classListRemove_of_ne {a c : String} {cs : List String} (h : a ≠ c) :
    a ∈ classListRemove c cs ↔ a ∈ cs := by
  simp [classListRemove, h]

theorem mem_classListToggle (c : String) (cs : List String) :
    c ∈ classListToggle c cs ↔ c ∉ cs := by
  unfold classListToggle
  split
  · rename_i h
    simp [classListRemove_not_mem, h]
  · rename_i h
    simp [h]

theorem menuClicks_hidden (m : Nat) (n : Nat) :
    ∀ pg : Page, (pg.lookup m).isSome = true →
      ("hidden" ∈ (menuClicks m n pg).classesOf m ↔
        ("hidden" ∈ pg.classesOf m ↔ n % 2 = 0)) := by
  induction n with
  | zero => intro pg _; simp [menuClicks]
  | succ n ih =>
    intro pg hl
    have hl1 : ((menuClick m pg).lookup m).isSome = true := by
      simp only [menuClick, Page.lookup_modify]
      cases h : pg.lookup m with
      | none => rw [h] at hl; cases hl
      | some y => rfl
    simp only [menuClicks]
    rw [ih _ hl1]
    simp only [menuClick, Page.classesOf_modify_self _ hl, mem_classListToggle]
    by_cases hh : "hidden" ∈ pg.classesOf m <;> simp [hh] <;> omega

/-! ## The claims -/

/-! ### C1: one message per invalid field -/

/-- C1 fails as stated, in two ways.  With two invalid fields that have no id
attribute the submit listener calls `preventDefault` and leaves one
error-message node (id `error-`) for two invalid fields.  And on the login
page, when the field `email` is invalid but `form.checkValidity()` returns
true (the field is barred from validation, such as a disabled field with a
custom error), the listener does not call `preventDefault` and leaves no
error-message node for the one invalid field. -/
theorem submit_shared_id_one_message :
    (submitListener (validOnly [] fillOut) 1 unnamedFieldsPage).defaultPrevented = true ∧
      (invalidFields (validOnly [] fillOut) 1 unnamedFieldsPage).length = 2 ∧
      (errorNodes 1 (submitListener (validOnly [] fillOut) 1 unnamedFieldsPage).page).length
        = 1 ∧
      (validOnly [1, 3] fillOut).valid 2 = false ∧
      checkValidity (validOnly [1, 3] fillOut) 1 = true ∧
      (submitListener (validOnly [1, 3] fillOut) 1 loginPage).defaultPrevented = false ∧
      (invalidFields (validOnly [1, 3] fillOut) 1 loginPage).length = 1 ∧
      (errorNodes 1 (submitListener (validOnly [1, 3] fillOut) 1 loginPage).page).length
        = 0 := by
  decide

/-- C1 (as amended): on a well-keyed page (in particular the fields of the form
have pairwise distinct ids), when `form.checkValidity()` returns false the
submit listener calls `preventDefault`, does not throw, leaves exactly one
element with id `error-<fieldId>` for each field whose `validity.valid` is
false and none for each field whose `validity.valid` is true, so the number
of error-message nodes for the fields of the form equals the number of its
invalid fields. -/
theorem submit_one_message_per_invalid_field (v : Validity) (form : Nat) (pg : Page)
    (h : WellKeyed form pg)
    (hinv : checkValidity v form = false) :
    (submitListener v form pg).defaultPrevented = true ∧
      (submitListener v form pg).threw = false ∧
      (∀ f ∈ querySelectorAllFields form pg,
        (withId (errorId (pg.idOf f)) (submitListener v form pg).page).length =
          if v.valid f = true then 0 else 1) ∧
      (errorNodes form (submitListener v form pg).page).length =
        (invalidFields v form pg).length := by
  obtain ⟨pg', hrun, -, w⟩ := submitListener_invalid h hinv
  rw [hrun]
  exact ⟨rfl, rfl, w.count, errorNodes_length h w⟩

/-- C1 at the login page with `email` invalid, `pw` valid and the form
reported invalid: the page is well-keyed and one message stands for the one
invalid field. -/
theorem submit_one_message_per_invalid_field_witness :
    WellKeyed 1 loginPage ∧
      checkValidity (validOnly [3] fillOut) 1 = false ∧
      (submitListener (validOnly [3] fillOut) 1 loginPage).defaultPrevented = true ∧
      (submitListener (validOnly [3] fillOut) 1 loginPage).threw = false ∧
      (∀ f ∈ querySelectorAllFields 1 loginPage,
        (withId (errorId (loginPage.idOf f))
            (submitListener (validOnly [3] fillOut) 1 loginPage).page).length =
          if (validOnly [3] fillOut).valid f = true then 0 else 1) ∧
      (errorNodes 1 (submitListener (validOnly [3] fillOut) 1 loginPage).page).length =
        (invalidFields (validOnly [3] fillOut) 1 loginPage).length :=
  ⟨loginPage_wellKeyed, by decide,
    submit_one_message_per_invalid_field (validOnly [3] fillOut) 1 loginPage
      loginPage_wellKeyed (by decide)⟩

/-! ### C2: idempotence of the submit listener -/

/-- C2 fails as stated, on two pages.  On the signup page a valid and an
invalid field share the key `error-` (no id attribute): the second run
removes the message created by the first run (element 10) and creates a
second element with id `error-` (element 12), which lands behind the message
of the third field, so the page after two runs is not the page after one run.
On the report page the valid field `code` makes the first run remove the
field `error-code` (the element its key names), whose own branch then throws
on `parentNode` being `null` and ends the loop before the field `note`: after
one run `note` has no marker class, after two runs it has. -/
theorem submit_twice_recreates_shared_message :
    (submitListener (validOnly [3] fillOut) 1
        (submitListener (validOnly [3] fillOut) 1 signupPage).page).page ≠
      (submitListener (validOnly [3] fillOut) 1 signupPage).page ∧
    (withId "error-" (submitListener (validOnly [3] fillOut) 1 signupPage).page).map Elem.ref
      = [10] ∧
    (withId "error-" (submitListener (validOnly [3] fillOut) 1
        (submitListener (validOnly [3] fillOut) 1 signupPage).page).page).map Elem.ref
      = [12] ∧
    (submitListener (validOnly [3] fillOut) 1 signupPage).page.childRefs 2 = [3, 4, 5, 10, 11] ∧
    (submitListener (validOnly [3] fillOut) 1
        (submitListener (validOnly [3] fillOut) 1 signupPage).page).page.childRefs 2
      = [3, 4, 5, 11, 12] ∧
    (submitListener (validOnly [2] fillOut) 1 reportPage).threw = true ∧
    marker ∉ (submitListener (validOnly [2] fillOut) 1 reportPage).page.classesOf 4 ∧
    marker ∈ (submitListener (validOnly [2] fillOut) 1
        (submitListener (validOnly [2] fillOut) 1 reportPage).page).page.classesOf 4 := by
  decide

/-- C2 (as amended): on a well-keyed page a second run of the submit listener
under the same validity changes nothing: its result (page, `preventDefault`,
no exception) is the result of the first run, so no element is created,
removed or restyled by the second run. -/
theorem submit_twice_eq_once (v : Validity) (form : Nat) (pg : Page)
    (h : WellKeyed form pg) :
    submitListener v form (submitListener v form pg).page = submitListener v form pg := by
  cases hc : checkValidity v form with
  | true => rw [submitListener_valid hc, submitListener_valid hc]
  | false =>
    obtain ⟨pg', hrun, -, w⟩ := submitListener_invalid h hc
    rw [hrun]
    have hc2 : checkValidity v form = false := hc
    have hs := w.settled
    have := forEachField_settled v w.kept.wk (querySelectorAllFields form pg')
      (fun g hg => ⟨hg, hs g (w.kept.fields ▸ hg)⟩)
    simp [submitListener, hc2, this]

/-- C2 at the login page with `email` invalid and `pw` valid: the form is
invalid and the second run returns what the first returned. -/
theorem submit_twice_eq_once_witness :
    WellKeyed 1 loginPage ∧
      checkValidity (validOnly [3] fillOut) 1 = false ∧
      submitListener (validOnly [3] fillOut) 1
          (submitListener (validOnly [3] fillOut) 1 loginPage).page =
        submitListener (validOnly [3] fillOut) 1 loginPage :=
  ⟨loginPage_wellKeyed, by decide,
    submit_twice_eq_once (validOnly [3] fillOut) 1 loginPage loginPage_wellKeyed⟩

/-! ### C3: the input listener clears a valid field -/

/-- C3 fails as stated: the field `pw` carries the marker class and has an
error-message node with id `error-pw`, but two elements carry that id; the
input listener, finding the field valid, removes the first of them
(element 3) and the other (element 4) stays in the document. -/
theorem input_valid_leaves_second_message :
    (validOnly [2] fillOut).valid 2 = true ∧
      marker ∈ twoMessagesPage.classesOf 2 ∧
      (twoMessagesPage.doc.getElementById (errorId (twoMessagesPage.idOf 2))).isSome = true ∧
      marker ∉ (inputListener (validOnly [2] fillOut) 2 twoMessagesPage).classesOf 2 ∧
      (withId "error-pw" (inputListener (validOnly [2] fillOut) 2 twoMessagesPage)).map
        Elem.ref = [4] := by
  decide

/-- C3 (as amended): when the field's error-message node is the only element
that carries the id `error-<fieldId>` (at most one element of the document
has it), the input listener of a field whose native validity is valid leaves
the field without the marker class `border-red-500` and the document without
any element whose id is `error-<fieldId>`; in particular so for a field that
carried the marker class and had its error-message node. -/
theorem input_valid_clears (v : Validity) (input : Nat) (pg : Page)
    (hv : v.valid input = true)
    (huniq : (withId (errorId (pg.idOf input)) pg).length ≤ 1) :
    marker ∉ (inputListener v input pg).classesOf input ∧
      withId (errorId (pg.idOf input)) (inputListener v input pg) = [] ∧
      (inputListener v input pg).doc.getElementById (errorId (pg.idOf input)) = none := by
  have hcls : ∀ a ∈ (pg.modify input (fun e => e.withClasses (classListRemove marker))).doc.els ++
      (pg.modify input (fun e => e.withClasses (classListRemove marker))).detached.els,
      a.ref = input → marker ∉ a.classes := by
    intro a ha har
    simp only [els_modify_doc, els_modify_detached, ← List.map_append, List.mem_map] at ha
    obtain ⟨b, -, rfl⟩ := ha
    have hb : b.ref = input := by simpa using har
    simp only [restyled, hb, if_true, withClasses_classes]
    exact classListRemove_not_mem _ _
  have huniq1 : (withId (errorId (pg.idOf input))
      (pg.modify input (fun e => e.withClasses (classListRemove marker)))).length ≤ 1 := by
    rw [withId_modify, List.length_map]; exact huniq
  have main : (∀ a ∈ (inputListener v input pg).doc.els ++ (inputListener v input pg).detached.els,
      a.ref = input → marker ∉ a.classes) ∧
      withId (errorId (pg.idOf input)) (inputListener v input pg) = [] := by
    simp only [inputListener, hv, if_true, Page.idOf_modify]
    cases hg : (pg.modify input (fun e => e.withClasses (classListRemove marker))).doc.getElementById
        (errorId (pg.idOf input)) with
    | none => exact ⟨hcls, (withId_eq_nil_iff (errorId_ne_empty _) _).2 hg⟩
    | some e =>
      simp only
      refine ⟨fun a ha => hcls a (Page.removeEl_sub _ _ a ha), ?_⟩
      obtain ⟨he, hid⟩ := getElementById_some hg
      obtain ⟨x, hx⟩ := Option.isSome_iff_exists.1 (Dom.find_isSome_of_mem he)
      rw [List.eq_nil_iff_forall_not_mem]
      intro a ha
      simp only [withId, Page.removeEl, hx, List.mem_filter, decide_eq_true_eq] at ha
      obtain ⟨ha1, ha2⟩ := Dom.mem_els_remove ha.1
      have hae : a ∈ withId (errorId (pg.idOf input))
          (pg.modify input (fun e => e.withClasses (classListRemove marker))) := by
        simp only [withId, List.mem_filter, decide_eq_true_eq]; exact ⟨ha1, ha.2⟩
      have hee : e ∈ withId (errorId (pg.idOf input))
          (pg.modify input (fun e => e.withClasses (classListRemove marker))) := by
        simp only [withId, List.mem_filter, decide_eq_true_eq]; exact ⟨he, hid⟩
      match hw : withId (errorId (pg.idOf input))
          (pg.modify input (fun e => e.withClasses (classListRemove marker))), huniq1 with
      | [], _ => rw [hw] at hee; cases hee
      | [z], _ =>
        rw [hw] at hae hee
        simp only [List.mem_singleton] at hae hee
        exact ha2 (by rw [hae, hee])
  refine ⟨?_, main.2, (withId_eq_nil_iff (errorId_ne_empty _) _).1 main.2⟩
  simp only [Page.classesOf]
  cases hl : (inputListener v input pg).lookup input with
  | none => simp
  | some y => exact main.1 y.1 (Page.lookup_mem hl) (Page.lookup_ref hl)

/-- C3 at the login page after a submit with both fields invalid: `email` has
the marker class and its message, and an input event that finds it valid
removes both. -/
theorem input_valid_clears_witness :
    (validOnly [2] fillOut).valid 2 = true ∧
      (withId (errorId ((submitListener (validOnly [] fillOut) 1 loginPage).page.idOf 2))
        (submitListener (validOnly [] fillOut) 1 loginPage).page).length ≤ 1 ∧
      marker ∈ (submitListener (validOnly [] fillOut) 1 loginPage).page.classesOf 2 ∧
      ((submitListener (validOnly [] fillOut) 1 loginPage).page.doc.getElementById
        "error-email").isSome = true ∧
      marker ∉ (inputListener (validOnly [2] fillOut) 2
        (submitListener (validOnly [] fillOut) 1 loginPage).page).classesOf 2 ∧
      withId "error-email" (inputListener (validOnly [2] fillOut) 2
        (submitListener (validOnly [] fillOut) 1 loginPage).page) = [] :=
  have h := input_valid_clears (validOnly [2] fillOut) 2
    (submitListener (validOnly [] fillOut) 1 loginPage).page (by decide) (by decide)
  ⟨by decide, by decide, by decide, by decide, h.1, h.2.1⟩

/-! ### C4: when a message exists -/

/-- C4 fails as stated: on the login page, after a single input event on the
field `email` while it is invalid, the most recent (and only) read of the
field's validity found it invalid, and no element with id `error-email`
exists. -/
theorem input_invalid_creates_no_message :
    lastObserved 2 (runEvents 1 [2, 3] [Event.input (validOnly [] fillOut) 2]
        (loginPage, [])).2 = some false ∧
      (runEvents 1 [2, 3] [Event.input (validOnly [] fillOut) 2]
        (loginPage, [])).1.doc.getElementById "error-email" = none := by
  decide

/-- C4 (as amended): for every sequence of submit and input events handled by
the listeners of a bound form, starting from a well-keyed page on which no
field of the form has an element with id `error-<fieldId>`: after the events
such an element exists for a field exactly when the most recent read of the
field's validity that a listener acts on (a read by the submit listener, or a
read of "valid" by the input listener) found it invalid.  Reads of "invalid"
by the input listener change nothing and do not count.  The sequence is
arbitrary, so the equivalence holds after each of its events. -/
theorem message_iff_last_acted_on (form : Nat) (bound : List Nat) (pg0 : Page)
    (evs : List Event) (h : WellKeyed form pg0)
    (hbound : (form, bound) ∈ setupFormValidation pg0)
    (hclean : ∀ f ∈ bound, pg0.doc.getElementById (errorId (pg0.idOf f)) = none) :
    ∀ f ∈ bound,
      (((runEvents form bound evs (pg0, [])).1.doc.getElementById
          (errorId (pg0.idOf f))).isSome = true ↔
        lastActedOn f (runEvents form bound evs (pg0, [])).2 = some false) := by
  have hb := mem_setupFormValidation hbound
  subst hb
  have t0 : Tracked form pg0 (pg0, []) := by
    refine ⟨Kept.refl h, ?_⟩
    intro f hf
    have := (withId_eq_nil_iff (errorId_ne_empty _) _).2 (hclean f hf)
    simp [this, lastActedOn]
  have t := Tracked.run evs t0
  intro f hf
  rw [← t.2 f hf, getElementById_errorId]
  cases withId (errorId (pg0.idOf f)) (runEvents form (querySelectorAllFields form pg0) evs
    (pg0, [])).1 <;> simp

/-- C4 at the login page for a submit with both fields invalid followed by an
input event on each field, `email` then valid and `pw` still invalid. -/
theorem message_iff_last_acted_on_witness :
    WellKeyed 1 loginPage ∧ (1, [2, 3]) ∈ setupFormValidation loginPage ∧
      (∀ f ∈ [2, 3], loginPage.doc.getElementById (errorId (loginPage.idOf f)) = none) ∧
      ∀ f ∈ [2, 3],
        (((runEvents 1 [2, 3]
            [Event.submit (validOnly [] fillOut), Event.input (validOnly [2] fillOut) 2,
              Event.input (validOnly [2] fillOut) 3] (loginPage, [])).1.doc.getElementById
            (errorId (loginPage.idOf f))).isSome = true ↔
          lastActedOn f (runEvents 1 [2, 3]
            [Event.submit (validOnly [] fillOut), Event.input (validOnly [2] fillOut) 2,
              Event.input (validOnly [2] fillOut) 3] (loginPage, [])).2 = some false) :=
  ⟨loginPage_wellKeyed, by decide, by decide,
    message_iff_last_acted_on 1 [2, 3] loginPage _ loginPage_wellKeyed (by decide) (by decide)⟩

/-! ### C5: where the message is placed -/

/-- C5 fails as stated: on the login page the message created for the invalid
field `email` (element 2) is element 5, and the form's child list afterwards
is `email, pw, go, error-email, error-pw`: the element right after the field
is the field `pw`, not the message. -/
theorem message_not_next_sibling :
    (submitListener (validOnly [] fillOut) 1 loginPage).page.doc.getElementById "error-email" =
        some ⟨5, "p", "error-email", ["text-red-500", "text-xs", "mt-1"], fillOut⟩ ∧
      (submitListener (validOnly [] fillOut) 1 loginPage).page.childRefs 1 = [2, 3, 4, 5, 6] := by
  decide

/-- C5 (as amended): on a well-keyed page, for an invalid field that has no
element with id `error-<fieldId>`, the submit listener on an invalid form
(`form.checkValidity()` returns false) creates the element
`p#error-<fieldId>` whose text is the field's `validationMessage` and appends
it to the field's parent: when the loop reaches the field, the parent's child
list becomes its former child list followed by the new element (which thus
follows the field immediately only when the field was the last child).  After
the whole listener the document holds such an element for the field. -/
theorem message_appended_to_parent (v : Validity) (form : Nat) (pg : Page)
    (h : WellKeyed form pg) (hform : checkValidity v form = false)
    (f : Nat) (hf : f ∈ querySelectorAllFields form pg)
    (hv : v.valid f = false)
    (hnone : pg.doc.getElementById (errorId (pg.idOf f)) = none) :
    (∃ p pg', pg.parentNode f = some p ∧ highlightField v f pg = Except.ok pg' ∧
      pg'.doc.getElementById (errorId (pg.idOf f)) =
        some ⟨pg.fresh, "p", errorId (pg.idOf f), ["text-red-500", "text-xs", "mt-1"],
          v.validationMessage f⟩ ∧
      pg'.childRefs p = pg.childRefs p ++ [pg.fresh]) ∧
    ∃ r, (submitListener v form pg).page.doc.getElementById (errorId (pg.idOf f)) =
      some ⟨r, "p", errorId (pg.idOf f), ["text-red-500", "text-xs", "mt-1"],
        v.validationMessage f⟩ := by
  have hn : withId (errorId (pg.idOf f)) pg = [] :=
    (withId_eq_nil_iff (errorId_ne_empty _) _).2 hnone
  constructor
  · obtain ⟨p, y, hp, hy, hyp, hyf, heq⟩ := highlightField_invalid_new v h hf hv hn
    obtain ⟨pg', hstep, s⟩ := highlightField_step v h hf
    rw [hv] at s
    refine ⟨p, pg', by simp [Page.parentNode, hp], hstep, ?_, ?_⟩
    · rw [getElementById_errorId, (s.created rfl hn).1]; rfl
    · rw [heq] at hstep
      cases hstep
      have hplt : p < pg.fresh := by
        have := h.refs_fresh y.1 (List.mem_append_left _ (Dom.mem_els_of_mem_nodes hy))
        omega
      have hlp : (pg.lookup p).isSome = true := by
        rw [← hyp, lookup_of_node h.doc_nodup hy]; rfl
      have hlp1 : ((pg.modify f (fun e => e.withClasses (classListAdd marker))).lookup p).isSome
          = true := by
        rw [Page.lookup_modify]
        cases hl : pg.lookup p with
        | none => rw [hl] at hlp; cases hlp
        | some z => rfl
      rw [Page.childRefs_adopt_self (by simp only; omega) hlp1, Page.childRefs_modify]
  · obtain ⟨pg', hrun, -, w⟩ := submitListener_invalid h hform
    rw [hrun]
    obtain ⟨r, -, -, hr⟩ := w.created f hf hv hn
    exact ⟨r, by rw [getElementById_errorId, hr]; rfl⟩

/-- C5 at the login page for the invalid field `email`: the message becomes
the last child of the form, behind `pw` and the button. -/
theorem message_appended_to_parent_witness :
    WellKeyed 1 loginPage ∧ checkValidity (validOnly [3] fillOut) 1 = false ∧
      2 ∈ querySelectorAllFields 1 loginPage ∧
      (validOnly [3] fillOut).valid 2 = false ∧
      loginPage.doc.getElementById (errorId (loginPage.idOf 2)) = none ∧
      ((∃ p pg', loginPage.parentNode 2 = some p ∧
        highlightField (validOnly [3] fillOut) 2 loginPage = Except.ok pg' ∧
        pg'.doc.getElementById (errorId (loginPage.idOf 2)) =
          some ⟨loginPage.fresh, "p", errorId (loginPage.idOf 2),
            ["text-red-500", "text-xs", "mt-1"], (validOnly [3] fillOut).validationMessage 2⟩ ∧
        pg'.childRefs p = loginPage.childRefs p ++ [loginPage.fresh]) ∧
      ∃ r, (submitListener (validOnly [3] fillOut) 1 loginPage).page.doc.getElementById
          (errorId (loginPage.idOf 2)) =
        some ⟨r, "p", errorId (loginPage.idOf 2), ["text-red-500", "text-xs", "mt-1"],
          (validOnly [3] fillOut).validationMessage 2⟩) :=
  ⟨loginPage_wellKeyed, by decide, by decide, by decide, by decide,
    message_appended_to_parent (validOnly [3] fillOut) 1 loginPage loginPage_wellKeyed
      (by decide) 2 (by decide) (by decide) (by decide)⟩

/-! ### C6: end state of the health check -/

/-- C6: for every initial class list and title of the indicator, after an ok
response (status 200-299) the indicator has `bg-green-500`, lacks `bg-red-500`
and is titled "API is online"; after any other response (such as 503) and
after a rejected request it has `bg-red-500`, lacks `bg-green-500` and is
titled "API is offline"; the rejected request ends as the non-ok response
does, and in every case exactly one of the two colour classes is present. -/
theorem health_check_end_state (ind : Indicator) (status : Nat) :
    (responseOk status = true →
      "bg-green-500" ∈ (onHealthSettled (FetchResult.response status) ind).classes ∧
      "bg-red-500" ∉ (onHealthSettled (FetchResult.response status) ind).classes ∧
      (onHealthSettled (FetchResult.response status) ind).title = "API is online") ∧
    (responseOk status = false →
      "bg-red-500" ∈ (onHealthSettled (FetchResult.response status) ind).classes ∧
      "bg-green-500" ∉ (onHealthSettled (FetchResult.response status) ind).classes ∧
      (onHealthSettled (FetchResult.response status) ind).title = "API is offline") ∧
    ("bg-red-500" ∈ (onHealthSettled FetchResult.rejected ind).classes ∧
      "bg-green-500" ∉ (onHealthSettled FetchResult.rejected ind).classes ∧
      (onHealthSettled FetchResult.rejected ind).title = "API is offline") ∧
    onHealthSettled FetchResult.rejected ind = onHealthSettled (FetchResult.response 503) ind ∧
    (∀ r : FetchResult,
      ("bg-green-500" ∈ (onHealthSettled r ind).classes ↔
        "bg-red-500" ∉ (onHealthSettled r ind).classes)) := by
  have hon : "bg-green-500" ∈ (markOnline ind).classes ∧ "bg-red-500" ∉ (markOnline ind).classes ∧
      (markOnline ind).title = "API is online" := by
    refine ⟨?_, classListRemove_not_mem _ _, rfl⟩
    show "bg-green-500" ∈ classListRemove "bg-red-500" (classListAdd "bg-green-500" ind.classes)
    rw [mem_classListRemove_of_ne (by decide)]
    exact classListAdd_mem _ _
  have hoff : "bg-red-500" ∈ (markOffline ind).classes ∧
      "bg-green-500" ∉ (markOffline ind).classes ∧
      (markOffline ind).title = "API is offline" := by
    refine ⟨?_, classListRemove_not_mem _ _, rfl⟩
    show "bg-red-500" ∈ classListRemove "bg-green-500" (classListAdd "bg-red-500" ind.classes)
    rw [mem_classListRemove_of_ne (by decide)]
    exact classListAdd_mem _ _
  refine ⟨?_, ?_, hoff, ?_, ?_⟩
  · intro hok; simp only [onHealthSettled, hok, if_true]; exact hon
  · intro hok; simp only [onHealthSettled, hok, Bool.false_eq_true, if_false]; exact hoff
  · have : responseOk 503 = false := by decide
    simp only [onHealthSettled, this, Bool.false_eq_true, if_false]
  · intro r
    cases r with
    | rejected =>
      simp only [onHealthSettled]
      exact ⟨fun h => absurd h hoff.2.1, fun h => absurd hoff.1 h⟩
    | response s =>
      simp only [onHealthSettled]
      cases responseOk s
      · simp only [Bool.false_eq_true, if_false]
        exact ⟨fun h => absurd h hoff.2.1, fun h => absurd hoff.1 h⟩
      · simp only [if_true]
        exact ⟨fun _ => hon.2.1, fun _ => hon.1⟩

/-! ### C7: parity of the menu toggle -/

/-- C7 fails as stated: with both elements present and the panel visible at
load (no class `hidden`), one click leaves the panel hidden and two clicks
leave it visible. -/
theorem menu_open_at_load_reverses_parity :
    menuSetup openNavPage = some 3 ∧
      "hidden" ∈ (menuAfterClicks openNavPage 1).classesOf 3 ∧
      "hidden" ∉ (menuAfterClicks openNavPage 2).classesOf 3 := by
  decide

/-- C7 (as amended): when the button and the panel are both found at load and
the panel starts hidden (class `hidden` present at load), after `n` clicks of
the menu button the panel is visible (class `hidden` absent) when `n` is odd
and hidden (class `hidden` present) when `n` is even. -/
theorem menu_parity (pg : Page) (mobileMenu : Nat) (n : Nat)
    (hsetup : menuSetup pg = some mobileMenu)
    (hhidden : "hidden" ∈ pg.classesOf mobileMenu) :
    (n % 2 = 1 → "hidden" ∉ (menuAfterClicks pg n).classesOf mobileMenu) ∧
      (n % 2 = 0 → "hidden" ∈ (menuAfterClicks pg n).classesOf mobileMenu) := by
  have hl : (pg.lookup mobileMenu).isSome = true := by
    cases h : pg.lookup mobileMenu with
    | none => simp [Page.classesOf, h] at hhidden
    | some y => rfl
  have := menuClicks_hidden mobileMenu n pg hl
  simp only [menuAfterClicks, hsetup]
  constructor
  · intro hn
    rw [this]
    simp [hhidden]; omega
  · intro hn
    rw [this]
    simp [hhidden, hn]

/-- C7 at a page whose panel starts hidden, for three clicks. -/
theorem menu_parity_witness :
    menuSetup navPage = some 3 ∧ "hidden" ∈ navPage.classesOf 3 ∧
      ((3 % 2 = 1 → "hidden" ∉ (menuAfterClicks navPage 3).classesOf 3) ∧
        (3 % 2 = 0 → "hidden" ∈ (menuAfterClicks navPage 3).classesOf 3)) :=
  ⟨by decide, by decide, menu_parity navPage 3 3 (by decide) (by decide)⟩

/-! ### C8: what a submit inspects -/

/-- C8 fails as stated: after a submit with both fields invalid, a submit with
the form and every field valid (no input event in between) does not call
`preventDefault` and inspects no field: the valid field `email` keeps the
marker class and its error-message node. -/
theorem submit_valid_form_leaves_stale_marker :
    (validOnly [1, 2, 3] fillOut).valid 2 = true ∧
      checkValidity (validOnly [1, 2, 3] fillOut) 1 = true ∧
      (submitListener (validOnly [1, 2, 3] fillOut) 1
        (submitListener (validOnly [] fillOut) 1 loginPage).page).defaultPrevented = false ∧
      marker ∈ (submitListener (validOnly [1, 2, 3] fillOut) 1
        (submitListener (validOnly [] fillOut) 1 loginPage).page).page.classesOf 2 ∧
      ((submitListener (validOnly [1, 2, 3] fillOut) 1
        (submitListener (validOnly [] fillOut) 1 loginPage).page).page.doc.getElementById
          "error-email").isSome = true := by
  decide

/-- C8 (as amended): on every page `preventDefault` is called exactly when the
aggregate validity (what `form.checkValidity()` returns) is false, and when
it is true the listener leaves the page as it is (no field is inspected);
when it is false on a well-keyed page the listener reads the validity of
every field of the form and afterwards every valid field has neither the
marker class nor an element with id `error-<fieldId>`. -/
theorem submit_cleans_valid_fields_of_invalid_form (v : Validity) (form : Nat) (pg : Page) :
    ((submitListener v form pg).defaultPrevented = true ↔ checkValidity v form = false) ∧
      (checkValidity v form = true → (submitListener v form pg).page = pg) ∧
      (WellKeyed form pg → checkValidity v form = false →
        fieldsRead v (querySelectorAllFields form pg) pg = querySelectorAllFields form pg ∧
        ∀ f ∈ querySelectorAllFields form pg, v.valid f = true →
          marker ∉ (submitListener v form pg).page.classesOf f ∧
          (submitListener v form pg).page.doc.getElementById (errorId (pg.idOf f)) = none) := by
  refine ⟨?_, ?_, ?_⟩
  · cases hc : checkValidity v form <;> simp [submitListener, hc]
  · intro hc; rw [submitListener_valid hc]
  · intro h hc
    obtain ⟨pg', hrun, hread, w⟩ := submitListener_invalid h hc
    rw [hrun]
    refine ⟨hread, ?_⟩
    intro f hf hv
    constructor
    · simp only [w.classes_in f hf, hv, if_true]
      exact classListRemove_not_mem _ _
    · exact (withId_eq_nil_iff (errorId_ne_empty _) _).1 (w.cleared f hf hv)

/-- C8 at the login page after a submit with both fields invalid: a second
submit with `pw` valid and `email` still invalid takes the marker class and
the message from `pw`. -/
theorem submit_cleans_valid_fields_of_invalid_form_witness :
    WellKeyed 1 (submitListener (validOnly [] fillOut) 1 loginPage).page ∧
      marker ∈ (submitListener (validOnly [] fillOut) 1 loginPage).page.classesOf 3 ∧
      checkValidity (validOnly [3] fillOut) 1 = false ∧
      marker ∉ (submitListener (validOnly [3] fillOut) 1
        (submitListener (validOnly [] fillOut) 1 loginPage).page).page.classesOf 3 ∧
      (submitListener (validOnly [3] fillOut) 1
        (submitListener (validOnly [] fillOut) 1 loginPage).page).page.doc.getElementById
          "error-pw" = none :=
  have hw : WellKeyed 1 (submitListener (validOnly [] fillOut) 1 loginPage).page :=
    ⟨by decide, by decide, by decide, by decide, by decide, by decide⟩
  ⟨hw, by decide, by decide,
    ((submit_cleans_valid_fields_of_invalid_form (validOnly [3] fillOut) 1 _).2.2 hw
      (by decide)).2 3 (by decide) (by decide)⟩

/-! ### C9: the guard of `checkBackendStatus` -/

/-- C9: `checkBackendStatus` never throws and never changes the page; when no
element has id `api-status-indicator` it issues no request, and it issues a
request, exactly one and to `/api/health`, exactly when the indicator is
present. -/
theorem checkBackendStatus_guard (pg : Page) :
    (pg.doc.getElementById "api-status-indicator" = none →
      checkBackendStatus pg = ⟨pg, [], false⟩) ∧
    ((checkBackendStatus pg).requests = ["/api/health"] ↔
      (pg.doc.getElementById "api-status-indicator").isSome = true) ∧
    ((checkBackendStatus pg).requests ≠ [] ↔
      (pg.doc.getElementById "api-status-indicator").isSome = true) ∧
    (checkBackendStatus pg).threw = false ∧
    (checkBackendStatus pg).page = pg := by
  unfold checkBackendStatus
  cases pg.doc.getElementById "api-status-indicator" <;> simp

/-! ### C10: the message text is a snapshot -/

/-- C10 fails as stated: the invalid second field shares the key `error-` with
the valid first field (no id attributes); its message reads "Please fill out
this field." after a first submit, and after a second submit, with the form
still invalid and the field now reporting another message, the element with
id `error-` carries the new text. -/
theorem submit_refreshes_shared_message :
    (validOnly [2] "Please lengthen this text.").valid 3 = false ∧
      ((submitListener (validOnly [2] fillOut) 1 unnamedFieldsPage).page.doc.getElementById
        "error-").map Elem.text = some fillOut ∧
      ((submitListener (validOnly [2] "Please lengthen this text.") 1
        (submitListener (validOnly [2] fillOut) 1 unnamedFieldsPage).page).page.doc.getElementById
          "error-").map Elem.text = some "Please lengthen this text." := by
  decide

/-- C10 (as amended): on a well-keyed page (in particular no other field of the
form shares the field's id), when an invalid field already has its element
with id `error-<fieldId>`, the submit listener leaves that element as it is,
text included, whatever `validationMessage` the field reports now. -/
theorem submit_keeps_existing_message (v : Validity) (form : Nat) (pg : Page)
    (h : WellKeyed form pg) (f : Nat) (hf : f ∈ querySelectorAllFields form pg)
    (hv : v.valid f = false) (e : Elem)
    (he : pg.doc.getElementById (errorId (pg.idOf f)) = some e) :
    (submitListener v form pg).page.doc.getElementById (errorId (pg.idOf f)) = some e := by
  cases hc : checkValidity v form with
  | true => rw [submitListener_valid hc]; exact he
  | false =>
    obtain ⟨pg', hrun, -, w⟩ := submitListener_invalid h hc
    rw [hrun]
    have hne : withId (errorId (pg.idOf f)) pg ≠ [] := by
      intro hn
      rw [(withId_eq_nil_iff (errorId_ne_empty _) _).1 hn] at he
      cases he
    rw [getElementById_of_withId (w.stays f hf hv hne)]
    exact he

/-- C10 at the login page after a submit with both fields invalid: `pw` has
its message, and a second submit, with `pw` reporting another message, leaves
the element and its text as they were. -/
theorem submit_keeps_existing_message_witness :
    WellKeyed 1 (submitListener (validOnly [] fillOut) 1 loginPage).page ∧
      (submitListener (validOnly [] fillOut) 1 loginPage).page.doc.getElementById
          (errorId ((submitListener (validOnly [] fillOut) 1 loginPage).page.idOf 3)) =
        some ⟨6, "p", "error-pw", ["text-red-500", "text-xs", "mt-1"], fillOut⟩ ∧
      (submitListener (validOnly [2] "Please lengthen this text.") 1
          (submitListener (validOnly [] fillOut) 1 loginPage).page).page.doc.getElementById
          (errorId ((submitListener (validOnly [] fillOut) 1 loginPage).page.idOf 3)) =
        some ⟨6, "p", "error-pw", ["text-red-500", "text-xs", "mt-1"], fillOut⟩ :=
  have hw : WellKeyed 1 (submitListener (validOnly [] fillOut) 1 loginPage).page :=
    ⟨by decide, by decide, by decide, by decide, by decide, by decide⟩
  ⟨hw, by decide,
    submit_keeps_existing_message (validOnly [2] "Please lengthen this text.") 1 _ hw 3
      (by decide) (by decide) _ (by decide)⟩

end PocketAI
